import Mathlib

/-!
Verification of the slice send/recv kernels of DeepRec
(`tensorflow/core/kernels/slice_sendrecv_ops.cc`) against the rendezvous
contract declared in `tensorflow/core/framework/rendezvous.h`.

Modelling conventions:
* C++ strings (device names, tensor names, rendezvous keys, tstring
  elements) are modelled as `List Char`, and the payload byte buffers of
  fixed-width tensors as `List α` for an abstract byte type `α`.
* Within one transfer instance the rendezvous key prefix and the
  frame/iteration discriminator are fixed, so an exchanged phase is
  identified by its tensor-name suffix alone; `PhaseKey` is the
  structured form of the suffixes used by the kernels.  The rendering of
  a `PhaseKey` to its literal suffix string and the full wire key is
  `PhaseKey.suffixChars` / `getSliceRendezvousKey`, and their injectivity
  is proved separately, which justifies keying the table by `PhaseKey`.
* The one-shot channels seen by one transfer instance are modelled as the
  association list of (phase key, envelope) pairs deposited by
  `SliceSendOp::Compute` in send order; `SliceRecvOp`'s `Recv` of a key
  is a lookup in that list (a missing key corresponds to a receive that
  blocks and times out, `RErr.missing`).
* int64 quantities are modelled as `Int`/`Nat` (the kernels only form
  sizes, counts and offsets, far below the overflow range); the one
  genuinely unsigned computation, `elem.size() - slice_size_` on `size_t`
  in `SliceSendOp::SendStringSlice`, is modelled with an explicit wrap
  modulo `2 ^ 64` (`usub64`).
-/

namespace SliceSendRecv

variable {α : Type}

/-- Decimal digit characters, used by the rendezvous key wire format. -/
def isDig (c : Char) : Bool := decide (48 ≤ c.toNat) && decide (c.toNat ≤ 57)

/-- The character of a single decimal digit. -/
def digitC (d : Nat) : Char := Char.ofNat (48 + d)

/-- Decimal rendering of a natural number, most significant digit first. -/
def natChars (n : Nat) : List Char :=
  if n = 0 then [digitC 0] else ((Nat.digits 10 n).map digitC).reverse

/-- Modelled from the spec: `strings::FpToString`, whose implementation is
not part of the excerpt, renders the source incarnation number in decimal
(`<source_incarnation_decimal>` in the wire-format of §6); likewise
`strings::StrCat` renders `uint64` values in decimal. -/
def fpToString (n : Nat) : List Char := natChars n

/-- `GetSliceRendezvousKeyPrefix` of `slice_sendrecv_ops.cc`: the reusable
part of the key, `send_device ; incarnation ; recv_device ; tensor_name`. -/
def getSliceRendezvousKeyPre (sendDevice recvDevice : List Char)
    (sendDeviceIncarnation : Nat) (tensorName : List Char) : List Char :=
  sendDevice ++ [';'] ++ fpToString sendDeviceIncarnation ++ [';'] ++
    recvDevice ++ [';'] ++ tensorName

/-- `GetSliceRendezvousKey` of `slice_sendrecv_ops.cc`: appends the
tensor-name suffix of a phase and the frame/iteration discriminator. -/
def getSliceRendezvousKey (keyPre tensorNameSuffix : List Char)
    (frameId iterId : Nat) : List Char :=
  keyPre ++ tensorNameSuffix ++ [';'] ++ natChars frameId ++ [':'] ++ natChars iterId

/-- The structured form of the tensor-name suffixes used by the slice
protocol: one constructor per phase kind. -/
inductive PhaseKey where
  | totalBytes
  | transferData
  | shape
  | elementsSize
  | data (i : Nat)
  | dataSub (i j : Nat)
deriving DecidableEq, Repr

/-- The common stem of the data-phase suffixes. -/
def dataStem : List Char := ("_slice_transfer_data_").data

/-- The literal tensor-name suffix of each phase, exactly as built by
`SliceSendOp`/`SliceRecvOp` via `strings::StrCat`. -/
def PhaseKey.suffixChars : PhaseKey → List Char
  | .totalBytes => ("_slice_transfer_totalbytes").data
  | .transferData => ("_transfer_data").data
  | .shape => ("_slice_transfer_shape").data
  | .elementsSize => ("_slice_transfer_elements_size").data
  | .data i => dataStem ++ natChars i
  | .dataSub i j => dataStem ++ natChars i ++ ['_'] ++ natChars j

/-- A payload tensor: either a fixed-width tensor (dims plus the flat byte
buffer) or a `DT_STRING` tensor (dims plus the list of string elements). -/
inductive Payload (α : Type) where
  | basic (shape : List Nat) (bytes : List α)
  | strs (shape : List Nat) (elems : List (List α))
deriving DecidableEq, Repr

/-- The dims of a payload (`Tensor::shape()`). -/
def Payload.shapeOf : Payload α → List Nat
  | .basic s _ => s
  | .strs s _ => s

/-- Whether the payload dtype is `DT_STRING`. -/
def Payload.isStr : Payload α → Bool
  | .basic _ _ => false
  | .strs _ _ => true

/-- `Tensor::TotalBytes()`: `num_elements * sizeof(T)` for a fixed-width
dtype of width `w`; `sizeof(tstring) * num_elements + Σ sizes` for
`DT_STRING`, with `ts = sizeof(tstring)`. -/
def totalBytesOf (w ts : Nat) : Payload α → Nat
  | .basic shape _ => shape.prod * w
  | .strs shape elems => ts * shape.prod + (elems.map List.length).sum

/-- The value carried by one exchanged tensor: an int64 tensor (scalar or
vector, flattened), a tstring scalar, a DT_INT8 slice buffer, or — on the
direct-transfer fast path — the whole payload tensor. -/
inductive TVal (α : Type) where
  | ints (xs : List Int)
  | str (s : List α)
  | bytes (xs : List α)
  | whole (p : Payload α)
deriving DecidableEq, Repr

/-- The `{val, is_dead}` bundle passed through `Rendezvous::Send`. -/
structure Env (α : Type) where
  val : TVal α
  isDead : Bool
deriving DecidableEq, Repr

/-- The envelopes deposited for one transfer instance, in send order. -/
abbrev Table (α : Type) := List (PhaseKey × Env α)

/-- Receiving under a phase key: the envelope deposited under that key. -/
def recvLookup : Table α → PhaseKey → Option (Env α)
  | [], _ => none
  | (k', e) :: t, k => if k' = k then some e else recvLookup t k

instance {ε σ : Type} [DecidableEq ε] [DecidableEq σ] : DecidableEq (Except ε σ) := fun a b =>
  match a, b with
  | .ok x, .ok y => if h : x = y then .isTrue (by rw [h]) else .isFalse (by simp [h])
  | .error x, .error y => if h : x = y then .isTrue (by rw [h]) else .isFalse (by simp [h])
  | .ok _, .error _ => .isFalse (by simp)
  | .error _, .ok _ => .isFalse (by simp)

/-- Receiver-side failures: a phase that never arrives (`Recv` timeout),
the `CHECK_EQ(is_dead, false)` protocol assertion, a tensor whose dtype or
shape is not the one the receiver reads it at, and the division by zero
hit when `slice_size = 0` reaches a slice-count computation. -/
inductive RErr where
  | missing
  | deadAssert
  | badVal
  | divByZero
deriving DecidableEq, Repr

/-- The slice count `(n + slice_size - 1) / slice_size` computed by
`SendBasicType`, `SendStringSlice`, `RecvBasicType` and `RecvStringSlice`;
the divisor is `slice_size`, unguarded in the source. -/
def sliceNumE (n S : Nat) : Except RErr Nat :=
  if S = 0 then .error .divByZero else .ok ((n + S - 1) / S)

/-- The per-slice copy size of `SendBasicType`/`RecvBasicType`, in int64
arithmetic: `copy_size = slice_size` unless `start > total - slice_size`,
in which case `copy_size = total - start`. -/
def copySizeI (total S i : Int) : Int :=
  if i * S > total - S then total - i * S else S

/-- `2 ^ 64`, the modulus of `size_t` arithmetic. -/
def W64 : Nat := 2 ^ 64

/-- `size_t` subtraction `a - b`, wrapping modulo `2 ^ 64`. -/
def usub64 (a b : Nat) : Nat := (a + (W64 - b % W64)) % W64

/-- `SliceSendOp::SendBasicType`: splits the flat byte buffer into
`ceil(total_bytes / slice_size)` contiguous ranges, sending range `i`
under the `data i` phase. -/
def sendBasicType (S : Nat) (isDead : Bool) (bytes : List α) :
    Except RErr (Table α) := do
  let bytesNum := bytes.length
  let sliceNum ← sliceNumE bytesNum S
  pure ((List.range sliceNum).map (fun i =>
    (PhaseKey.data i,
      ⟨.bytes ((bytes.drop (i * S)).take
          (copySizeI (bytesNum : Int) (S : Int) (i : Int)).toNat), isDead⟩)))

/-- The substring sent for sub-slice `i` of one oversized string element:
`elem.substr(start, copy_size)` with `start = i * slice_size` and
`copy_size = slice_size` unless `start > elem.size() - slice_size`
(a `size_t` subtraction), in which case `copy_size = elem.size() - start`. -/
def subSliceOf (S : Nat) (elem : List α) (i : Nat) : List α :=
  (elem.drop (i * S)).take
    (if i * S > usub64 elem.length S then usub64 elem.length (i * S) else S)

/-- `SliceSendOp::SendStringSlice`: splits one oversized string element
into `ceil(size / slice_size)` substrings, sending substring `i` under the
`dataSub index i` phase.  `start` and the subtraction are `size_t`. -/
def sendStringSlice (S : Nat) (isDead : Bool) (elem : List α) (index : Nat) :
    Except RErr (Table α) := do
  let sliceNum ← sliceNumE elem.length S
  pure ((List.range sliceNum).map (fun i =>
    (PhaseKey.dataSub index i, ⟨.str (subSliceOf S elem i), isDead⟩)))

/-- The per-element send loop of `SliceSendOp::SendString`: element `i`
goes whole under `data i` when its size is at most `slice_size`, and
through `SendStringSlice` otherwise. -/
def sendStringData (S : Nat) (isDead : Bool) : List (List α) → Nat → Except RErr (Table α)
  | [], _ => pure []
  | e :: rest, i =>
    if e.length ≤ S then do
      let t ← sendStringData S isDead rest (i + 1)
      pure ((PhaseKey.data i, ⟨.str e, isDead⟩) :: t)
    else do
      let slices ← sendStringSlice S isDead e i
      let t ← sendStringData S isDead rest (i + 1)
      pure (slices ++ t)

/-- `SliceSendOp::SendString`: the per-element sizes envelope followed by
the per-element data phases. -/
def sendString (S : Nat) (isDead : Bool) (elems : List (List α)) :
    Except RErr (Table α) := do
  let dataT ← sendStringData S isDead elems 0
  pure ((PhaseKey.elementsSize,
    ⟨.ints (elems.map (fun e => (e.length : Int))), isDead⟩) :: dataT)

/-- `SliceSendOp::SendShape`: the dims as an int64 vector. -/
def sendShape (isDead : Bool) (shape : List Nat) : Table α :=
  [(PhaseKey.shape, ⟨.ints (shape.map (fun (d : Nat) => (d : Int))), isDead⟩)]

/-- `SliceSendOp::Compute`: total bytes first (dead short-circuit), then
either the direct transfer (fast path) or shape followed by the dtype's
data phases. -/
def sliceSendCompute (w ts S : Nat) (isDead : Bool) (p : Payload α) :
    Except RErr (Table α) :=
  let tb := totalBytesOf w ts p
  let tbT : Table α := [(PhaseKey.totalBytes, ⟨.ints [(tb : Int)], isDead⟩)]
  if isDead then pure tbT
  else if tb ≤ S then
    pure (tbT ++ [(PhaseKey.transferData, ⟨.whole p, isDead⟩)])
  else
    match p with
    | .basic _ bytes => do
        let dataT ← sendBasicType S isDead bytes
        pure (tbT ++ sendShape isDead p.shapeOf ++ dataT)
    | .strs _ elems => do
        let dataT ← sendString S isDead elems
        pure (tbT ++ sendShape isDead p.shapeOf ++ dataT)

/-- A receive of a phase after `TotalBytes`: every such phase is asserted
non-dead (`CHECK_EQ(is_dead, false)`). -/
def recvAssertLive (t : Table α) (k : PhaseKey) : Except RErr (TVal α) :=
  match recvLookup t k with
  | none => .error .missing
  | some e => if e.isDead then .error .deadAssert else .ok e.val

/-- `SliceRecvOp::RecvTotalBytes`: the only phase allowed to arrive dead;
the scalar is read only when live. -/
def recvTotalBytes (t : Table α) : Except RErr (Bool × Int) :=
  match recvLookup t .totalBytes with
  | none => .error .missing
  | some e =>
    if e.isDead then .ok (true, 0)
    else match e.val with
      | .ints [n] => .ok (false, n)
      | _ => .error .badVal

/-- `SliceRecvOp::RecvShape`: the dims vector, `AddDim` per entry. -/
def recvShape (t : Table α) : Except RErr (List Nat) := do
  let v ← recvAssertLive t .shape
  match v with
  | .ints xs => pure (xs.map Int.toNat)
  | _ => .error .badVal

/-- `memcpy(output + start, data, data.length)` into a flat buffer. -/
def writeAt (buf : List α) (start : Nat) (data : List α) : List α :=
  buf.take start ++ data ++ buf.drop (start + data.length)

/-- The slice loop of `SliceRecvOp::RecvBasicType`: slice `i` is copied to
offset `i * slice_size` of the output buffer, `copy_size` bytes. -/
def recvBasicLoop (t : Table α) (S total : Nat) :
    List Nat → List α → Except RErr (List α)
  | [], buf => pure buf
  | i :: rest, buf => do
    let v ← recvAssertLive t (.data i)
    match v with
    | .bytes xs =>
        recvBasicLoop t S total rest
          (writeAt buf (i * S)
            (xs.take (copySizeI (total : Int) (S : Int) (i : Int)).toNat))
    | _ => .error .badVal

/-- `SliceRecvOp::RecvBasicType`: `ceil(total_bytes / slice_size)` slices
copied into the output buffer `out0` (allocated from the received shape,
contents arbitrary). -/
def recvBasicType (t : Table α) (S total : Nat) (out0 : List α) :
    Except RErr (List α) := do
  let n ← sliceNumE total S
  recvBasicLoop t S total (List.range n) out0

/-- The sub-slice loop of `SliceRecvOp::RecvStringSlice`: the received
substrings are appended (`output_flat(index) += ...`) in index order. -/
def recvStringSliceLoop (t : Table α) (index : Nat) :
    List Nat → List α → Except RErr (List α)
  | [], acc => pure acc
  | j :: rest, acc => do
    let v ← recvAssertLive t (.dataSub index j)
    match v with
    | .str s => recvStringSliceLoop t index rest (acc ++ s)
    | _ => .error .badVal

/-- `SliceRecvOp::RecvStringSlice`: `ceil(element_size / slice_size)`
sub-slices of one oversized string element, concatenated.  (Reached only
with `element_size > slice_size ≥ 0`, so the int64 count is computed on
the non-negative value.) -/
def recvStringSlice (t : Table α) (S : Nat) (index : Nat) (elementSize : Int) :
    Except RErr (List α) := do
  let n ← sliceNumE elementSize.toNat S
  recvStringSliceLoop t index (List.range n) []

/-- One element of `SliceRecvOp::RecvString`: read whole if its announced
size fits in a slice, else through `RecvStringSlice`. -/
def recvStringElem (t : Table α) (S : Nat) (i : Nat) (sz : Int) :
    Except RErr (List α) :=
  if sz ≤ (S : Int) then do
    let v ← recvAssertLive t (.data i)
    match v with
    | .str s => pure s
    | _ => .error .badVal
  else recvStringSlice t S i sz

/-- The element loop of `SliceRecvOp::RecvString`, over the element count
derived from the received shape, reading `elements_size_flat(i)`. -/
def recvStringLoop (t : Table α) (S : Nat) (sizes : List Int) :
    List Nat → Except RErr (List (List α))
  | [] => pure []
  | i :: rest =>
    match sizes.get? i with
    | none => .error .badVal
    | some sz => do
      let s ← recvStringElem t S i sz
      let others ← recvStringLoop t S sizes rest
      pure (s :: others)

/-- `SliceRecvOp::RecvString`: the per-element sizes envelope, then one
string per element of the received shape. -/
def recvString (t : Table α) (S : Nat) (shape : List Nat) :
    Except RErr (List (List α)) := do
  let v ← recvAssertLive t .elementsSize
  match v with
  | .ints sizes => recvStringLoop t S sizes (List.range shape.prod)
  | _ => .error .badVal

/-- The result of `SliceRecvOp::Compute`: a dead instance, or the output
tensor. -/
inductive RecvOut (α : Type) where
  | dead
  | out (p : Payload α)
deriving DecidableEq, Repr

/-- `SliceRecvOp::Compute`: total bytes first (return if dead), the direct
transfer when it fits a slice, otherwise shape then the dtype's data
phases; the output of the sliced path is allocated from the received
shape (`w` = `sizeof` of the fixed-width dtype), contents arbitrary. -/
def sliceRecvCompute [Inhabited α] (w S : Nat) (isStr : Bool) (t : Table α) :
    Except RErr (RecvOut α) := do
  let r ← recvTotalBytes t
  if r.1 then pure .dead
  else if r.2 ≤ (S : Int) then do
    let v ← recvAssertLive t .transferData
    match v with
    | .whole p => pure (.out p)
    | _ => .error .badVal
  else do
    let shape ← recvShape t
    if isStr then do
      let elems ← recvString t S shape
      pure (.out (.strs shape elems))
    else do
      let bytes ← recvBasicType t S r.2.toNat (List.replicate (shape.prod * w) default)
      pure (.out (.basic shape bytes))

/-- Sender phases then the mirrored receiver phases over the same keys. -/
def roundTrip [Inhabited α] (w ts S : Nat) (p : Payload α) :
    Except RErr (RecvOut α) :=
  (sliceSendCompute w ts S false p).bind (sliceRecvCompute w S p.isStr)

/-- Well-formedness of a payload tensor: the flat buffer of a fixed-width
tensor has `num_elements * sizeof(T)` bytes; a string tensor has one
element per point of its shape, each of `size_t` size. -/
def wfPayload (w : Nat) : Payload α → Prop
  | .basic shape bytes => bytes.length = shape.prod * w
  | .strs shape elems => elems.length = shape.prod ∧ ∀ e ∈ elems, e.length < W64

/-! ### The rendezvous channel table

`rendezvous.h` only declares the interface (its local implementation is
not part of the excerpt), so the table is modelled from the spec. -/

/-- Modelled from the spec: one channel of the table holds either a
deposited envelope awaiting a consumer, or a registered waiter. -/
inductive Chan (α : Type) where
  | env (e : α)
  | waiter
deriving DecidableEq

/-- Modelled from the spec: the channel table, with the table-wide abort
flag and the per-key channel states. -/
structure RdvState (κ α : Type) where
  aborted : Bool
  chans : List (κ × Chan α)

/-- The channel registered under a key, if any. -/
def chanLookup [DecidableEq κ] : List (κ × Chan α) → κ → Option (Chan α)
  | [], _ => none
  | (k', c) :: t, k => if k' = k then some c else chanLookup t k

/-- Removing a matched channel (one deposit satisfies one consumption). -/
def chanRemove [DecidableEq κ] (t : List (κ × Chan α)) (k : κ) :
    List (κ × Chan α) :=
  t.filter (fun p => decide (p.1 ≠ k))

/-- The producer-visible outcome of `Rendezvous::Send`.  Its type has no
waiting outcome: `Send` either succeeds or reports the aborted table. -/
inductive SendRes where
  | ok
  | abortedErr
deriving DecidableEq

/-- Modelled from the spec (§4.2) and the contract comment of
`rendezvous.h` (`Send() never blocks`): `send` resolves a registered
waiter immediately, otherwise deposits the envelope for a later consumer;
it fails only if the table has been aborted.  (A duplicate send on a key
already holding an envelope is a caller-contract violation; the model
keeps the first deposit.) -/
def rdvSend [DecidableEq κ] (s : RdvState κ α) (k : κ) (e : α) :
    RdvState κ α × SendRes :=
  if s.aborted then (s, .abortedErr)
  else match chanLookup s.chans k with
    | some .waiter => ({ s with chans := chanRemove s.chans k }, .ok)
    | some (.env _) => (s, .ok)
    | none => ({ s with chans := (k, .env e) :: s.chans }, .ok)

/-- The consumer-visible outcome of one receive attempt: unlike `Send`,
a receive on an empty channel must wait. -/
inductive RecvRes (α : Type) where
  | val (e : α)
  | wait
  | abortedErr
deriving DecidableEq

/-- Modelled from the spec: a consumer's attempt — takes a deposited
envelope if present, otherwise registers a waiter and waits. -/
def rdvRecvStep [DecidableEq κ] (s : RdvState κ α) (k : κ) :
    RdvState κ α × RecvRes α :=
  if s.aborted then (s, .abortedErr)
  else match chanLookup s.chans k with
    | some (.env e) => ({ s with chans := chanRemove s.chans k }, .val e)
    | some .waiter => (s, .wait)
    | none => ({ s with chans := (k, .waiter) :: s.chans }, .wait)

/-! ### Arithmetic helper lemmas -/

theorem sliceNumE_ok {S : Nat} (hS : 1 ≤ S) (n : Nat) :
    sliceNumE n S = .ok ((n + S - 1) / S) := by
  unfold sliceNumE
  rw [if_neg (by omega)]

/-- `(N + S - 1) / S` slices of size `S` cover at least `N`. -/
theorem le_ceil_mul {S N : Nat} (hS : 1 ≤ S) : N ≤ ((N + S - 1) / S) * S := by
  have key := Nat.div_add_mod (N + S - 1) S
  have hr : (N + S - 1) % S < S := Nat.mod_lt _ (by omega)
  rw [Nat.mul_comm]
  omega

theorem ceil_pos {S N : Nat} (hS : 1 ≤ S) (hN : 1 ≤ N) :
    1 ≤ (N + S - 1) / S := by
  rw [Nat.le_div_iff_mul_le (by omega)]
  omega

/-- One slice fewer than `(N + S - 1) / S` does not cover `N`. -/
theorem ceil_pred_mul_lt {S N : Nat} (hS : 1 ≤ S) (hN : 1 ≤ N) :
    ((N + S - 1) / S - 1) * S < N := by
  have key := Nat.div_add_mod (N + S - 1) S
  have hr : (N + S - 1) % S < S := Nat.mod_lt _ (by omega)
  have hq := ceil_pos hS hN
  rw [Nat.sub_mul, Nat.mul_comm]
  omega

/-- A non-final slice (`i * S + S ≤ N`) has copy size `S`. -/
theorem copySizeI_toNat_mid {N S i : Nat} (h : i * S + S ≤ N) :
    (copySizeI (N : Int) (S : Int) (i : Int)).toNat = S := by
  unfold copySizeI
  rw [if_neg] <;> omega

/-- A final slice (`N ≤ i * S + S`, `i * S < N`) has copy size `N - i * S`
(also when the remainder is exactly `S` and the branch is not taken). -/
theorem copySizeI_toNat_last {N S i : Nat} (hub : N ≤ i * S + S) (hlb : i * S < N) :
    (copySizeI (N : Int) (S : Int) (i : Int)).toNat = N - i * S := by
  unfold copySizeI
  split <;> omega

/-- For an in-range non-final index, the slice fits before `N`. -/
theorem mid_bound {S N i : Nat} (hS : 1 ≤ S) (hi : i + 1 < (N + S - 1) / S) :
    i * S + S ≤ N := by
  rcases Nat.eq_zero_or_pos N with hN | hN
  · subst hN
    have : (0 + S - 1) / S = 0 := Nat.div_eq_of_lt (by omega)
    omega
  · have h1 : (i + 1) * S ≤ ((N + S - 1) / S - 1) * S :=
      Nat.mul_le_mul_right S (by omega)
    have h2 := ceil_pred_mul_lt (N := N) hS hN
    have := Nat.add_mul i 1 S
    omega

/-- `size_t` subtraction agrees with `Nat` subtraction below the wrap. -/
theorem usub64_eq_sub {a b : Nat} (hb : b ≤ a) (ha : a < W64) : usub64 a b = a - b := by
  have h64 : W64 = 18446744073709551616 := by norm_num [W64]
  unfold usub64
  rw [h64] at ha ⊢
  have hbm : b % 18446744073709551616 = b := Nat.mod_eq_of_lt (by omega)
  rw [hbm]
  omega

/-! ### Lookup helper lemmas -/

theorem recvLookup_cons_self {k : PhaseKey} {e : Env α} {t : Table α} :
    recvLookup ((k, e) :: t) k = some e := by
  simp [recvLookup]

theorem recvLookup_cons_ne {k' k : PhaseKey} {e : Env α} {t : Table α}
    (h : k' ≠ k) : recvLookup ((k', e) :: t) k = recvLookup t k := by
  simp [recvLookup, h]

theorem recvLookup_append_left {t₁ t₂ : Table α} {k : PhaseKey} {e : Env α}
    (h : recvLookup t₁ k = some e) : recvLookup (t₁ ++ t₂) k = some e := by
  induction t₁ with
  | nil => simp [recvLookup] at h
  | cons p t ih =>
    obtain ⟨k', e'⟩ := p
    by_cases hk : k' = k
    · subst hk
      rw [recvLookup_cons_self] at h
      simpa [recvLookup_cons_self] using h
    · rw [recvLookup_cons_ne hk] at h
      rw [List.cons_append, recvLookup_cons_ne hk]
      exact ih h

theorem recvLookup_append_right {t₁ t₂ : Table α} {k : PhaseKey}
    (h : recvLookup t₁ k = none) : recvLookup (t₁ ++ t₂) k = recvLookup t₂ k := by
  induction t₁ with
  | nil => rfl
  | cons p t ih =>
    obtain ⟨k', e'⟩ := p
    by_cases hk : k' = k
    · subst hk
      rw [recvLookup_cons_self] at h
      exact absurd h (by simp)
    · rw [recvLookup_cons_ne hk] at h
      rw [List.cons_append, recvLookup_cons_ne hk]
      exact ih h

theorem recvLookup_none {t : Table α} {k : PhaseKey}
    (h : ∀ p ∈ t, p.1 ≠ k) : recvLookup t k = none := by
  induction t with
  | nil => rfl
  | cons p t ih =>
    obtain ⟨k', e'⟩ := p
    rw [recvLookup_cons_ne (h (k', e') (by simp))]
    exact ih (fun q hq => h q (by simp [hq]))

/-- Looking up the `i`-th key in a table indexed by a key family `g`
injective over `List.range' s len`. -/
theorem recvLookup_map_range' {g : Nat → PhaseKey} {f : Nat → Env α}
    (hg : ∀ a b, g a = g b → a = b) :
    ∀ (len s i : Nat), s ≤ i → i < s + len →
      recvLookup ((List.range' s len).map (fun j => (g j, f j))) (g i) = some (f i) := by
  intro len
  induction len with
  | zero => intro s i h1 h2; omega
  | succ m ih =>
    intro s i h1 h2
    rw [List.range'_succ, List.map_cons]
    by_cases hsi : s = i
    · subst hsi
      exact recvLookup_cons_self
    · rw [recvLookup_cons_ne (fun hc => hsi (hg _ _ hc))]
      exact ih (s + 1) i (by omega) (by omega)

theorem recvLookup_map_range'_none {g : Nat → PhaseKey} {f : Nat → Env α}
    {k : PhaseKey} (hk : ∀ j, g j ≠ k) (len s : Nat) :
    recvLookup ((List.range' s len).map (fun j => (g j, f j))) k = none := by
  refine recvLookup_none ?_
  intro p hp
  obtain ⟨j, _, rfl⟩ := List.mem_map.mp hp
  exact hk j

/-! ### Unfolding lemmas for the senders -/

theorem sendBasicType_eq {S : Nat} (hS : 1 ≤ S) (d : Bool) (bytes : List α) :
    sendBasicType S d bytes =
      .ok ((List.range ((bytes.length + S - 1) / S)).map (fun i =>
        (PhaseKey.data i, ⟨.bytes ((bytes.drop (i * S)).take
          ((copySizeI (bytes.length : Int) (S : Int) (i : Int)).toNat)), d⟩))) := by
  simp only [sendBasicType, sliceNumE_ok hS]
  rfl

theorem sendStringSlice_eq {S : Nat} (hS : 1 ≤ S) (d : Bool) (elem : List α)
    (index : Nat) :
    sendStringSlice S d elem index =
      .ok ((List.range ((elem.length + S - 1) / S)).map (fun i =>
        (PhaseKey.dataSub index i, ⟨.str (subSliceOf S elem i), d⟩))) := by
  simp only [sendStringSlice, sliceNumE_ok hS]
  rfl

/-! ### Reduction of the `Except` monad operations -/

@[simp] theorem pureE {ε σ : Type} (a : σ) :
    (pure a : Except ε σ) = Except.ok a := rfl

@[simp] theorem bindE_ok {ε σ τ : Type} (a : σ) (f : σ → Except ε τ) :
    (Except.ok a >>= f : Except ε τ) = f a := rfl

@[simp] theorem bindE_err {ε σ τ : Type} (r : ε) (f : σ → Except ε τ) :
    (Except.error r >>= f : Except ε τ) = Except.error r := rfl

@[simp] theorem mapE_ok {ε σ τ : Type} (a : σ) (f : σ → τ) :
    (f <$> Except.ok a : Except ε τ) = Except.ok (f a) := rfl

@[simp] theorem mapE_err {ε σ τ : Type} (r : ε) (f : σ → τ) :
    (f <$> Except.error r : Except ε τ) = Except.error r := rfl

/-! ### Fast-path and dead-path evaluation lemmas -/

theorem sliceSendCompute_dead (w ts S : Nat) (p : Payload α) :
    sliceSendCompute w ts S true p =
      .ok [(PhaseKey.totalBytes, ⟨.ints [(totalBytesOf w ts p : Int)], true⟩)] := rfl

theorem sliceRecvCompute_dead [Inhabited α] (w S : Nat) (isStr : Bool) (v : TVal α) :
    sliceRecvCompute w S isStr [(PhaseKey.totalBytes, ⟨v, true⟩)] = .ok .dead := rfl

theorem sliceSendCompute_fast {w ts S : Nat} {p : Payload α}
    (h : totalBytesOf w ts p ≤ S) :
    sliceSendCompute w ts S false p =
      .ok [(PhaseKey.totalBytes, ⟨.ints [(totalBytesOf w ts p : Int)], false⟩),
           (PhaseKey.transferData, ⟨.whole p, false⟩)] := by
  simp only [sliceSendCompute, Bool.false_eq_true, if_false, if_pos h]
  rfl

theorem sliceRecvCompute_fast [Inhabited α] {S : Nat} (w : Nat) (isStr : Bool)
    {tb : Nat} (h : tb ≤ S) (p : Payload α) :
    sliceRecvCompute w S isStr
      [(PhaseKey.totalBytes, ⟨.ints [(tb : Int)], false⟩),
       (PhaseKey.transferData, ⟨.whole p, false⟩)] = .ok (.out p) := by
  have hc : ((tb : Int) ≤ (S : Int)) := by exact_mod_cast h
  simp [sliceRecvCompute, recvTotalBytes, recvAssertLive, recvLookup, hc]

/-! ### Envelope liveness of the sent phases -/

theorem sendBasicType_isDead {S : Nat} {d : Bool} {bytes : List α} {t : Table α}
    (h : sendBasicType S d bytes = .ok t) :
    ∀ k e, (k, e) ∈ t → e.isDead = d := by
  rcases hsn : sliceNumE bytes.length S with r | n <;>
    simp only [sendBasicType, hsn, bindE_err, bindE_ok] at h
  · exact absurd h (by simp)
  · intro k e hm
    rw [show t = _ from (Except.ok.injEq _ _).mp h.symm] at hm
    obtain ⟨i, _, hi⟩ := List.mem_map.mp hm
    exact congrArg Env.isDead (congrArg Prod.snd hi).symm

theorem sendStringSlice_isDead {S : Nat} {d : Bool} {elem : List α} {idx : Nat}
    {t : Table α} (h : sendStringSlice S d elem idx = .ok t) :
    ∀ k e, (k, e) ∈ t → e.isDead = d := by
  rcases hsn : sliceNumE elem.length S with r | n <;>
    simp only [sendStringSlice, hsn, bindE_err, bindE_ok] at h
  · exact absurd h (by simp)
  · intro k e hm
    rw [show t = _ from (Except.ok.injEq _ _).mp h.symm] at hm
    obtain ⟨i, _, hi⟩ := List.mem_map.mp hm
    exact congrArg Env.isDead (congrArg Prod.snd hi).symm

theorem sendStringData_isDead {S : Nat} {d : Bool} :
    ∀ (elems : List (List α)) (i0 : Nat) (t : Table α),
      sendStringData S d elems i0 = .ok t →
      ∀ k e, (k, e) ∈ t → e.isDead = d := by
  intro elems
  induction elems with
  | nil =>
    intro i0 t h k e hm
    simp only [sendStringData] at h
    rw [show t = _ from (Except.ok.injEq _ _).mp h.symm] at hm
    simp at hm
  | cons el rest ih =>
    intro i0 t h k e hm
    by_cases hsmall : el.length ≤ S
    · rcases hrest : sendStringData S d rest (i0 + 1) with r | t' <;>
        simp only [sendStringData, if_pos hsmall, hrest,
          bindE_err, bindE_ok] at h
      · exact absurd h (by simp)
      · rw [show t = _ from (Except.ok.injEq _ _).mp h.symm] at hm
        rcases List.mem_cons.mp hm with h1 | h2
        · exact congrArg Env.isDead (congrArg Prod.snd h1)
        · exact ih (i0 + 1) t' hrest k e h2
    · rcases hsl : sendStringSlice S d el i0 with r | ts <;>
        simp only [sendStringData, if_neg hsmall, hsl, bindE_err, bindE_ok] at h
      · exact absurd h (by simp)
      · rcases hrest : sendStringData S d rest (i0 + 1) with r' | t' <;>
          simp only [hrest, bindE_err, bindE_ok] at h
        · exact absurd h (by simp)
        · rw [show t = _ from (Except.ok.injEq _ _).mp h.symm] at hm
          rcases List.mem_append.mp hm with h1 | h2
          · exact sendStringSlice_isDead hsl k e h1
          · exact ih (i0 + 1) t' hrest k e h2

theorem sendString_isDead {S : Nat} {d : Bool} {elems : List (List α)}
    {t : Table α} (h : sendString S d elems = .ok t) :
    ∀ k e, (k, e) ∈ t → e.isDead = d := by
  rcases hd : sendStringData S d elems 0 with r | dt <;>
    simp only [sendString, hd, bindE_err, bindE_ok] at h
  · exact absurd h (by simp)
  · intro k e hm
    rw [show t = _ from (Except.ok.injEq _ _).mp h.symm] at hm
    rcases List.mem_cons.mp hm with h1 | h2
    · exact congrArg Env.isDead (congrArg Prod.snd h1)
    · exact sendStringData_isDead elems 0 dt hd k e h2

/-! ### Receiver-side reconstruction lemmas -/

theorem recvAssertLive_of_lookup {t : Table α} {k : PhaseKey} {v : TVal α}
    (h : recvLookup t k = some ⟨v, false⟩) : recvAssertLive t k = .ok v := by
  simp [recvAssertLive, h]

/-- Casting dims to int64 and back recovers them. -/
theorem map_toNat_map_cast (sh : List Nat) :
    (sh.map (fun (d : Nat) => (d : Int))).map Int.toNat = sh := by
  induction sh with
  | nil => rfl
  | cons d sh ih =>
    simp only [List.map_cons, Int.toNat_ofNat, ih]

/-- The composed form of `map_toNat_map_cast`. -/
theorem map_toNat_comp_cast (sh : List Nat) :
    sh.map (Int.toNat ∘ fun (d : Nat) => (d : Int)) = sh := by
  rw [← List.map_map]
  exact map_toNat_map_cast sh

/-- `memcpy` of `data` at offset `start` into a buffer whose first `start`
entries already hold `bytes` and whose tail still holds `out0`. -/
theorem writeAt_reassemble {bytes out0 data : List α} {start c : Nat}
    (hstart : start ≤ bytes.length) (hdata : data.length = c) :
    writeAt (bytes.take start ++ out0.drop start) start data
      = bytes.take start ++ data ++ out0.drop (start + c) := by
  unfold writeAt
  have h1 : (bytes.take start).length = start := by
    rw [List.length_take]
    omega
  have h2 : (bytes.take start ++ out0.drop start).take start = bytes.take start :=
    List.take_left' h1
  have h3 : (bytes.take start ++ out0.drop start).drop (start + data.length)
      = out0.drop (start + c) := by
    rw [hdata]
    have h4 : (bytes.take start ++ out0.drop start).drop ((bytes.take start).length + c)
        = (out0.drop start).drop c := List.drop_append c
    rw [h1] at h4
    rw [h4, List.drop_drop]
  rw [h2, h3]

/-- The slice loop of `RecvBasicType` rebuilds the sender's byte buffer:
with all sent slices available under their keys, processing slices
`a, a+1, ..., n-1` over a buffer whose first `a * S` bytes already match
`bytes` yields `bytes` in full. -/
theorem recvBasicLoop_reconstruct {t : Table α} {S N : Nat} {bytes out0 : List α}
    (hS : 1 ≤ S) (hN : 1 ≤ N) (hlen : bytes.length = N) (hout : out0.length = N)
    (hload : ∀ i : Nat, i < (N + S - 1) / S →
      recvLookup t (.data i) = some ⟨.bytes ((bytes.drop (i * S)).take
        ((copySizeI (N : Int) (S : Int) (i : Int)).toNat)), false⟩) :
    ∀ (k a : Nat), a + k = (N + S - 1) / S →
      recvBasicLoop t S N (List.range' a k)
        (bytes.take (min (a * S) N) ++ out0.drop (min (a * S) N)) = .ok bytes := by
  intro k
  induction k with
  | zero =>
    intro a hk
    have ha : a = (N + S - 1) / S := by omega
    subst ha
    have hna : N ≤ ((N + S - 1) / S) * S := le_ceil_mul hS
    have hmin : min (((N + S - 1) / S) * S) N = N := by omega
    have h1 : bytes.length ≤ N := by omega
    have h2 : out0.length ≤ N := by omega
    rw [hmin, List.take_of_length_le h1, List.drop_eq_nil_iff.mpr h2,
      List.append_nil]
    rfl
  | succ m ih =>
    intro a hk
    have han : a < (N + S - 1) / S := by omega
    have haSlt : a * S < N := by
      have h1 : a * S ≤ ((N + S - 1) / S - 1) * S :=
        Nat.mul_le_mul_right S (by omega)
      have h2 := ceil_pred_mul_lt (S := S) (N := N) hS hN
      omega
    set c := (copySizeI (N : Int) (S : Int) (a : Int)).toNat with hc
    have hcases : (a + 1 = (N + S - 1) / S ∧ c = N - a * S ∧ N ≤ a * S + S) ∨
        (a + 1 < (N + S - 1) / S ∧ c = S ∧ a * S + S ≤ N) := by
      by_cases hfin : a + 1 = (N + S - 1) / S
      · have hub : N ≤ a * S + S := by
          have h1 := le_ceil_mul (S := S) (N := N) hS
          have h2 : ((N + S - 1) / S) * S = a * S + S := by
            rw [← hfin]
            ring
          omega
        have hcv : c = N - a * S := by
          rw [hc]
          exact copySizeI_toNat_last hub haSlt
        exact Or.inl ⟨hfin, hcv, hub⟩
      · have hmid := mid_bound hS (S := S) (N := N) (i := a) (by omega)
        have hcv : c = S := by
          rw [hc]
          exact copySizeI_toNat_mid hmid
        exact Or.inr ⟨by omega, hcv, hmid⟩
    have hacN : a * S + c ≤ N := by
      rcases hcases with ⟨_, hc', _⟩ | ⟨_, hc', _⟩ <;> omega
    have hmina : min (a * S) N = a * S := by omega
    have hsucc : (a + 1) * S = a * S + S := by ring
    have hminb : min ((a + 1) * S) N = a * S + c := by
      rcases hcases with ⟨_, hc', hub⟩ | ⟨_, hc', hub⟩ <;> omega
    have hxs : ((bytes.drop (a * S)).take c).length = c := by
      rw [List.length_take, List.length_drop]
      omega
    rw [List.range'_succ]
    have hal := recvAssertLive_of_lookup (hload a han)
    rw [hmina]
    simp only [recvBasicLoop, hal, bindE_ok]
    rw [List.take_of_length_le (le_of_eq hxs)]
    rw [writeAt_reassemble (by omega) hxs]
    rw [show bytes.take (a * S) ++ (bytes.drop (a * S)).take c
        = bytes.take (a * S + c) from (List.take_add bytes (a * S) c).symm]
    have := ih (a + 1) (by omega)
    rw [hminb] at this
    exact this

/-! ### The sliced fixed-width path -/

theorem sliceSendCompute_slow_basic {w ts S : Nat} {sh : List Nat}
    {bytes : List α} (hS : 1 ≤ S)
    (hfast : ¬ totalBytesOf (α := α) w ts (.basic sh bytes) ≤ S) :
    sliceSendCompute w ts S false (.basic sh bytes) = .ok (
      (PhaseKey.totalBytes, ⟨.ints [(sh.prod * w : Int)], false⟩) ::
      (PhaseKey.shape, ⟨.ints (sh.map (fun (d : Nat) => (d : Int))), false⟩) ::
      (List.range ((bytes.length + S - 1) / S)).map (fun j =>
        (PhaseKey.data j, ⟨.bytes ((bytes.drop (j * S)).take
          ((copySizeI (bytes.length : Int) (S : Int) (j : Int)).toNat)), false⟩))) := by
  simp only [sliceSendCompute, Bool.false_eq_true, if_false, if_neg hfast,
    sendBasicType_eq hS, bindE_ok, pureE]
  rfl

theorem sliceRecvCompute_slow_basic [Inhabited α] {w S : Nat} {sh : List Nat}
    {bytes : List α} (hS : 1 ≤ S) (hwfb : bytes.length = sh.prod * w)
    (hfast : S < bytes.length) :
    sliceRecvCompute w S false
      ((PhaseKey.totalBytes, ⟨.ints [(sh.prod * w : Int)], false⟩) ::
       (PhaseKey.shape, ⟨.ints (sh.map (fun (d : Nat) => (d : Int))), false⟩) ::
       (List.range ((bytes.length + S - 1) / S)).map (fun j =>
         (PhaseKey.data j, ⟨.bytes ((bytes.drop (j * S)).take
           ((copySizeI (bytes.length : Int) (S : Int) (j : Int)).toNat)), false⟩)))
      = .ok (.out (.basic sh bytes)) := by
  set t := (PhaseKey.totalBytes, (⟨.ints [(sh.prod * w : Int)], false⟩ : Env α)) ::
      (PhaseKey.shape, ⟨.ints (sh.map (fun (d : Nat) => (d : Int))), false⟩) ::
      (List.range ((bytes.length + S - 1) / S)).map (fun j =>
        (PhaseKey.data j, ⟨.bytes ((bytes.drop (j * S)).take
          ((copySizeI (bytes.length : Int) (S : Int) (j : Int)).toNat)), false⟩))
    with ht
  have h1 : recvTotalBytes t = .ok (false, (sh.prod * w : Int)) := by
    rw [ht]
    simp [recvTotalBytes, recvLookup]
  have h2 : recvShape t = .ok sh := by
    unfold recvShape
    rw [recvAssertLive_of_lookup (k := PhaseKey.shape)
      (v := .ints (sh.map (fun (d : Nat) => (d : Int))))]
    · simp [map_toNat_map_cast, map_toNat_comp_cast]
    · rw [ht, recvLookup_cons_ne (by simp)]
      exact recvLookup_cons_self
  have hload : ∀ i : Nat, i < (bytes.length + S - 1) / S →
      recvLookup t (.data i) = some ⟨.bytes ((bytes.drop (i * S)).take
        ((copySizeI (bytes.length : Int) (S : Int) (i : Int)).toNat)), false⟩ := by
    intro i hi
    rw [ht, recvLookup_cons_ne (by simp), recvLookup_cons_ne (by simp),
      List.range_eq_range']
    exact recvLookup_map_range' (fun a b hab => by simpa using hab) _ 0 i
      (by omega) (by omega)
  have h3 : recvBasicType t S (sh.prod * w)
      (List.replicate (sh.prod * w) default) = .ok bytes := by
    rw [← hwfb]
    simp only [recvBasicType, sliceNumE_ok hS, bindE_ok, List.range_eq_range']
    have hout0 : (List.replicate bytes.length (default : α)).length
        = bytes.length := by simp
    have hr := recvBasicLoop_reconstruct hS (by omega) rfl hout0 hload
      ((bytes.length + S - 1) / S) 0 (by omega)
    simpa using hr
  have hcast : ¬ ((sh.prod * w : Int) ≤ (S : Int)) := by
    rw [hwfb] at hfast
    exact_mod_cast Nat.not_le.mpr hfast
  have htn : ((sh.prod : Int) * (w : Int)).toNat = sh.prod * w := by
    rw [← Nat.cast_mul, Int.toNat_ofNat]
  simp only [sliceRecvCompute, h1, bindE_ok, Bool.false_eq_true, if_false,
    hcast, htn, h2, h3, mapE_ok, pureE, bindE_ok]

/-! ### The sliced string path -/

/-- In the domain actually reached by `SendStringSlice` (an oversized
element, every start inside the element), the sent substring is just the
next `slice_size` characters — the final-slice branch only shortens the
`take` past the end of the element, which `take` already does. -/
theorem subSliceOf_eq_take {S : Nat} {elem : List α} {a : Nat}
    (hS : 1 ≤ S) (hlen : S < elem.length) (hW : elem.length < W64)
    (haS : a * S < elem.length) :
    subSliceOf S elem a = (elem.drop (a * S)).take S := by
  unfold subSliceOf
  have hus : usub64 elem.length S = elem.length - S := usub64_eq_sub (by omega) hW
  rw [hus]
  by_cases hc : a * S > elem.length - S
  · rw [if_pos hc]
    have hus2 : usub64 elem.length (a * S) = elem.length - a * S :=
      usub64_eq_sub (by omega) hW
    rw [hus2]
    have h1 : (elem.drop (a * S)).length = elem.length - a * S :=
      List.length_drop _ _
    rw [List.take_of_length_le (by omega), List.take_of_length_le (by omega)]
  · rw [if_neg hc]

/-- The sub-slice loop of `RecvStringSlice` rebuilds one oversized string
element by concatenating the sender's substrings in order. -/
theorem recvStringSliceLoop_reconstruct {t : Table α} {S idx : Nat}
    {elem : List α} (hS : 1 ≤ S) (hlen : S < elem.length) (hW : elem.length < W64)
    (hload : ∀ j : Nat, j < (elem.length + S - 1) / S →
      recvLookup t (.dataSub idx j) = some ⟨.str (subSliceOf S elem j), false⟩) :
    ∀ (k a : Nat), a + k = (elem.length + S - 1) / S →
      recvStringSliceLoop t idx (List.range' a k) (elem.take (a * S)) = .ok elem := by
  intro k
  induction k with
  | zero =>
    intro a hk
    have ha : a = (elem.length + S - 1) / S := by omega
    subst ha
    have h1 := le_ceil_mul (S := S) (N := elem.length) hS
    rw [List.take_of_length_le h1]
    rfl
  | succ m ih =>
    intro a hk
    have han : a < (elem.length + S - 1) / S := by omega
    have haS : a * S < elem.length := by
      have h1 : a * S ≤ ((elem.length + S - 1) / S - 1) * S :=
        Nat.mul_le_mul_right S (by omega)
      have h2 := ceil_pred_mul_lt (S := S) (N := elem.length) hS (by omega)
      omega
    rw [List.range'_succ]
    simp only [recvStringSliceLoop, recvAssertLive_of_lookup (hload a han),
      bindE_ok]
    rw [subSliceOf_eq_take hS hlen hW haS, ← List.take_add,
      show a * S + S = (a + 1) * S from by ring]
    exact ih (a + 1) (by omega)

/-- The table deposited by the per-element send loop of `SendString`,
written as one explicit association list. -/
def stringDataTable (S : Nat) : List (List α) → Nat → Table α
  | [], _ => []
  | e :: rest, i0 =>
    if e.length ≤ S then
      (PhaseKey.data i0, ⟨.str e, false⟩) :: stringDataTable S rest (i0 + 1)
    else
      ((List.range ((e.length + S - 1) / S)).map (fun j =>
        (PhaseKey.dataSub i0 j, ⟨.str (subSliceOf S e j), false⟩)))
        ++ stringDataTable S rest (i0 + 1)

theorem sendStringData_eq {S : Nat} (hS : 1 ≤ S) :
    ∀ (elems : List (List α)) (i0 : Nat),
      sendStringData S false elems i0 = .ok (stringDataTable S elems i0) := by
  intro elems
  induction elems with
  | nil => intro i0; rfl
  | cons e rest ih =>
    intro i0
    by_cases hsmall : e.length ≤ S
    · simp only [sendStringData, if_pos hsmall, ih (i0 + 1), bindE_ok, pureE,
        stringDataTable]
    · simp only [sendStringData, if_neg hsmall, sendStringSlice_eq hS,
        ih (i0 + 1), bindE_ok, pureE, stringDataTable]

/-- The sub-slice chunk of one element holds no key of a later element. -/
theorem subslice_chunk_skip {S : Nat} {el : List α} {i0 m : Nat} {k : PhaseKey}
    (hk : ∀ j : Nat, PhaseKey.dataSub i0 j ≠ k) {t₂ : Table α} :
    recvLookup (((List.range m).map (fun j =>
        (PhaseKey.dataSub i0 j, (⟨.str (subSliceOf S el j), false⟩ : Env α))))
      ++ t₂) k = recvLookup t₂ k := by
  refine recvLookup_append_right (recvLookup_none ?_)
  intro p hp
  obtain ⟨j, _, rfl⟩ := List.mem_map.mp hp
  exact hk j

theorem stringDataTable_lookup_small {S : Nat} :
    ∀ {elems : List (List α)} {i0 a : Nat} {e : List α},
      elems.get? a = some e → e.length ≤ S →
      recvLookup (stringDataTable S elems i0) (.data (i0 + a))
        = some ⟨.str e, false⟩ := by
  intro elems
  induction elems with
  | nil => intro i0 a e he; simp [List.get?] at he
  | cons el rest ih =>
    intro i0 a e he hse
    cases a with
    | zero =>
      rw [List.get?] at he
      obtain rfl : el = e := by injection he
      rw [stringDataTable, if_pos hse, Nat.add_zero]
      exact recvLookup_cons_self
    | succ a' =>
      rw [List.get?] at he
      have hkey : i0 + (a' + 1) = (i0 + 1) + a' := by omega
      by_cases hsmall : el.length ≤ S
      · have hne : PhaseKey.data i0 ≠ PhaseKey.data (i0 + (a' + 1)) := by
          intro hc
          injection hc with hc'
          omega
        rw [stringDataTable, if_pos hsmall, recvLookup_cons_ne hne, hkey]
        exact ih he hse
      · have hne : ∀ j : Nat,
            PhaseKey.dataSub i0 j ≠ PhaseKey.data (i0 + (a' + 1)) := by
          intro j hc
          exact PhaseKey.noConfusion hc
        rw [stringDataTable, if_neg hsmall, subslice_chunk_skip hne, hkey]
        exact ih he hse

theorem stringDataTable_lookup_big {S : Nat} :
    ∀ {elems : List (List α)} {i0 a : Nat} {e : List α},
      elems.get? a = some e → S < e.length →
      ∀ j : Nat, j < (e.length + S - 1) / S →
      recvLookup (stringDataTable S elems i0) (.dataSub (i0 + a) j)
        = some ⟨.str (subSliceOf S e j), false⟩ := by
  intro elems
  induction elems with
  | nil => intro i0 a e he; simp [List.get?] at he
  | cons el rest ih =>
    intro i0 a e he hse j hj
    cases a with
    | zero =>
      rw [List.get?] at he
      obtain rfl : el = e := by injection he
      rw [stringDataTable, if_neg (by omega), Nat.add_zero]
      refine recvLookup_append_left ?_
      rw [List.range_eq_range']
      refine recvLookup_map_range' ?_ _ 0 j (by omega) (by omega)
      intro a b hab
      injection hab with h1 h2
    | succ a' =>
      rw [List.get?] at he
      have hkey : i0 + (a' + 1) = (i0 + 1) + a' := by omega
      by_cases hsmall : el.length ≤ S
      · have hne : PhaseKey.data i0 ≠ PhaseKey.dataSub (i0 + (a' + 1)) j := by
          intro hc
          exact PhaseKey.noConfusion hc
        rw [stringDataTable, if_pos hsmall, recvLookup_cons_ne hne, hkey]
        exact ih he hse j hj
      · have hne : ∀ j2 : Nat,
            PhaseKey.dataSub i0 j2 ≠ PhaseKey.dataSub (i0 + (a' + 1)) j := by
          intro j2 hc
          injection hc with h1 h2
          omega
        rw [stringDataTable, if_neg hsmall, subslice_chunk_skip hne, hkey]
        exact ih he hse j hj

/-- The element loop of `RecvString` returns the remaining elements in
order, reading each from its phase(s). -/
theorem recvStringLoop_reconstruct {t : Table α} {S : Nat}
    {elems : List (List α)} (hS : 1 ≤ S)
    (hW : ∀ e ∈ elems, e.length < W64)
    (hsmall : ∀ (a : Nat) (e : List α), elems.get? a = some e → e.length ≤ S →
        recvLookup t (.data a) = some ⟨.str e, false⟩)
    (hbig : ∀ (a : Nat) (e : List α), elems.get? a = some e → S < e.length →
        ∀ j : Nat, j < (e.length + S - 1) / S →
        recvLookup t (.dataSub a j) = some ⟨.str (subSliceOf S e j), false⟩) :
    ∀ (k a : Nat), a + k = elems.length →
      recvStringLoop t S (elems.map (fun e => (e.length : Int)))
        (List.range' a k) = .ok (elems.drop a) := by
  intro k
  induction k with
  | zero =>
    intro a hk
    have ha : a = elems.length := by omega
    subst ha
    rw [List.drop_length]
    rfl
  | succ m ih =>
    intro a hk
    have han : a < elems.length := by omega
    obtain ⟨e, he⟩ : ∃ e, elems.get? a = some e := by
      rw [List.get?_eq_getElem?]
      exact ⟨elems[a], List.getElem?_eq_getElem han⟩
    have heg : elems[a] = e := by
      rw [List.get?_eq_getElem?, List.getElem?_eq_getElem han] at he
      injection he
    have hsz : (elems.map (fun e => (e.length : Int))).get? a
        = some ((e.length : Int)) := by
      rw [List.get?_map, he]
      rfl
    have helem : recvStringElem t S a ((e.length : Int)) = .ok e := by
      unfold recvStringElem
      by_cases hc : e.length ≤ S
      · rw [if_pos (by exact_mod_cast hc)]
        simp only [recvAssertLive_of_lookup (hsmall a e he hc), bindE_ok]
        rfl
      · rw [if_neg (by exact_mod_cast hc)]
        unfold recvStringSlice
        rw [Int.toNat_ofNat, sliceNumE_ok hS, bindE_ok, List.range_eq_range']
        have hrec := recvStringSliceLoop_reconstruct hS (by omega)
          (hW e (List.get?_mem he)) (hbig a e he (by omega))
          ((e.length + S - 1) / S) 0 (by omega)
        simpa using hrec
    rw [List.range'_succ]
    simp only [recvStringLoop, hsz, helem, bindE_ok, ih (a + 1) (by omega),
      pureE]
    rw [List.drop_eq_getElem_cons han, heg]

theorem sliceSendCompute_slow_strs {w ts S : Nat} {sh : List Nat}
    {elems : List (List α)} (hS : 1 ≤ S)
    (hfast : ¬ totalBytesOf (α := α) w ts (.strs sh elems) ≤ S) :
    sliceSendCompute w ts S false (.strs sh elems) = .ok (
      (PhaseKey.totalBytes,
        ⟨.ints [(totalBytesOf (α := α) w ts (.strs sh elems) : Int)], false⟩) ::
      (PhaseKey.shape, ⟨.ints (sh.map (fun (d : Nat) => (d : Int))), false⟩) ::
      (PhaseKey.elementsSize,
        ⟨.ints (elems.map (fun e => (e.length : Int))), false⟩) ::
      stringDataTable S elems 0) := by
  simp only [sliceSendCompute, Bool.false_eq_true, if_false, if_neg hfast,
    sendString, sendStringData_eq hS, bindE_ok, pureE]
  rfl

theorem sliceRecvCompute_slow_strs [Inhabited α] {w S : Nat} {sh : List Nat}
    {elems : List (List α)} {tb : Nat} (hS : 1 ≤ S)
    (hwfe : elems.length = sh.prod)
    (hW : ∀ e ∈ elems, e.length < W64)
    (hfast : S < tb) :
    sliceRecvCompute w S true
      ((PhaseKey.totalBytes, ⟨.ints [(tb : Int)], false⟩) ::
       (PhaseKey.shape, ⟨.ints (sh.map (fun (d : Nat) => (d : Int))), false⟩) ::
       (PhaseKey.elementsSize,
         ⟨.ints (elems.map (fun e => (e.length : Int))), false⟩) ::
       stringDataTable S elems 0)
      = .ok (.out (.strs sh elems)) := by
  set t := (PhaseKey.totalBytes, (⟨.ints [(tb : Int)], false⟩ : Env α)) ::
      (PhaseKey.shape, ⟨.ints (sh.map (fun (d : Nat) => (d : Int))), false⟩) ::
      (PhaseKey.elementsSize,
        ⟨.ints (elems.map (fun e => (e.length : Int))), false⟩) ::
      stringDataTable S elems 0
    with ht
  have h1 : recvTotalBytes t = .ok (false, (tb : Int)) := by
    rw [ht]
    simp [recvTotalBytes, recvLookup]
  have h2 : recvShape t = .ok sh := by
    unfold recvShape
    rw [recvAssertLive_of_lookup (k := PhaseKey.shape)
      (v := .ints (sh.map (fun (d : Nat) => (d : Int))))]
    · simp [map_toNat_map_cast, map_toNat_comp_cast]
    · rw [ht, recvLookup_cons_ne (by simp)]
      exact recvLookup_cons_self
  have h3 : recvString t S sh = .ok elems := by
    unfold recvString
    rw [recvAssertLive_of_lookup (k := PhaseKey.elementsSize)
      (v := .ints (elems.map (fun e => (e.length : Int))))]
    · have hloop := recvStringLoop_reconstruct (t := t) hS hW
        (fun a e he hle => by
          rw [ht, recvLookup_cons_ne (by simp), recvLookup_cons_ne (by simp),
            recvLookup_cons_ne (by simp)]
          have h0 : recvLookup (stringDataTable S elems 0)
              (.data (0 + a)) = some ⟨.str e, false⟩ :=
            stringDataTable_lookup_small he hle
          rwa [Nat.zero_add] at h0)
        (fun a e he hgt j hj => by
          rw [ht, recvLookup_cons_ne (by simp), recvLookup_cons_ne (by simp),
            recvLookup_cons_ne (by simp)]
          have h0 : recvLookup (stringDataTable S elems 0)
              (.dataSub (0 + a) j) = some ⟨.str (subSliceOf S e j), false⟩ :=
            stringDataTable_lookup_big he hgt j hj
          rwa [Nat.zero_add] at h0)
        elems.length 0 (by omega)
      rw [← List.range_eq_range'] at hloop
      simp only [bindE_ok]
      rw [hwfe] at hloop
      simpa using hloop
    · rw [ht, recvLookup_cons_ne (by simp), recvLookup_cons_ne (by simp)]
      exact recvLookup_cons_self
  have hcast : ¬ ((tb : Int) ≤ (S : Int)) := by
    exact_mod_cast Nat.not_le.mpr hfast
  simp only [sliceRecvCompute, h1, bindE_ok, Bool.false_eq_true, if_false,
    hcast, if_true, h2, h3, mapE_ok, pureE]

/-! ### Decimal renderings and the key wire format -/

theorem digitC_toNat {d : Nat} (h : d < 10) : (digitC d).toNat = 48 + d := by
  interval_cases d <;> rfl

theorem isDig_digitC {d : Nat} (h : d < 10) : isDig (digitC d) = true := by
  interval_cases d <;> rfl

theorem digitC_inj {d e : Nat} (hd : d < 10) (he : e < 10)
    (h : digitC d = digitC e) : d = e := by
  have h1 := digitC_toNat hd
  have h2 := digitC_toNat he
  rw [h] at h1
  omega

theorem natChars_ne_nil (n : Nat) : natChars n ≠ [] := by
  unfold natChars
  by_cases h : n = 0
  · simp [h]
  · rw [if_neg h]
    intro hc
    rw [List.reverse_eq_nil_iff, List.map_eq_nil_iff] at hc
    exact Nat.digits_ne_nil_iff_ne_zero.mpr h hc

theorem natChars_all_digits (n : Nat) : ∀ c ∈ natChars n, isDig c = true := by
  intro c hc
  unfold natChars at hc
  by_cases h : n = 0
  · rw [if_pos h] at hc
    rw [List.mem_singleton] at hc
    subst hc
    rfl
  · rw [if_neg h, List.mem_reverse] at hc
    obtain ⟨d, hd, rfl⟩ := List.mem_map.mp hc
    exact isDig_digitC (Nat.digits_lt_base (by norm_num) hd)

theorem map_digitC_inj : ∀ {l1 l2 : List Nat}, (∀ d ∈ l1, d < 10) →
    (∀ d ∈ l2, d < 10) → l1.map digitC = l2.map digitC → l1 = l2 := by
  intro l1
  induction l1 with
  | nil =>
    intro l2 _ _ h
    cases l2 with
    | nil => rfl
    | cons y l2 => simp at h
  | cons x l1 ih =>
    intro l2 h1 h2 h
    cases l2 with
    | nil => simp at h
    | cons y l2 =>
      simp only [List.map_cons, List.cons.injEq] at h
      have hx : x = y := digitC_inj (h1 x (by simp)) (h2 y (by simp)) h.1
      rw [hx, ih (fun d hd => h1 d (by simp [hd]))
        (fun d hd => h2 d (by simp [hd])) h.2]

theorem natChars_inj {m n : Nat} (h : natChars m = natChars n) : m = n := by
  unfold natChars at h
  by_cases hm : m = 0 <;> by_cases hn : n = 0
  · omega
  · rw [if_pos hm, if_neg hn] at h
    exfalso
    have h' : (Nat.digits 10 n).map digitC = [digitC 0] := by
      rw [← List.reverse_inj]
      rw [← h]
      rfl
    rcases hd : Nat.digits 10 n with _ | ⟨d, rest⟩
    · rw [hd] at h'
      simp at h'
    · rw [hd] at h'
      simp only [List.map_cons, List.cons.injEq] at h'
      obtain ⟨hd0, hrest⟩ := h'
      rw [List.map_eq_nil_iff] at hrest
      subst hrest
      have hdlt : d < 10 := Nat.digits_lt_base (by norm_num) (by rw [hd]; simp)
      have hd0' : d = 0 := digitC_inj hdlt (by norm_num) hd0
      rw [hd0'] at hd
      have hofd := Nat.ofDigits_digits 10 n
      rw [hd] at hofd
      simp [Nat.ofDigits] at hofd
      exact hn hofd.symm
  · rw [if_neg hm, if_pos hn] at h
    exfalso
    have h' : (Nat.digits 10 m).map digitC = [digitC 0] := by
      rw [← List.reverse_inj]
      rw [h]
      rfl
    rcases hd : Nat.digits 10 m with _ | ⟨d, rest⟩
    · rw [hd] at h'
      simp at h'
    · rw [hd] at h'
      simp only [List.map_cons, List.cons.injEq] at h'
      obtain ⟨hd0, hrest⟩ := h'
      rw [List.map_eq_nil_iff] at hrest
      subst hrest
      have hdlt : d < 10 := Nat.digits_lt_base (by norm_num) (by rw [hd]; simp)
      have hd0' : d = 0 := digitC_inj hdlt (by norm_num) hd0
      rw [hd0'] at hd
      have hofd := Nat.ofDigits_digits 10 m
      rw [hd] at hofd
      simp [Nat.ofDigits] at hofd
      exact hm hofd.symm
  · rw [if_neg hm, if_neg hn, List.reverse_inj] at h
    have hdig := map_digitC_inj
      (fun d hd => Nat.digits_lt_base (by norm_num) hd)
      (fun d hd => Nat.digits_lt_base (by norm_num) hd) h
    have h1 := Nat.ofDigits_digits 10 m
    have h2 := Nat.ofDigits_digits 10 n
    rw [← h1, ← h2, hdig]

/-! ### Suffix-freeness of the phase suffixes -/

/-- The reversed trailing decimal-digit run of a string. -/
def revDigits (l : List Char) : List Char := l.reverse.takeWhile isDig

theorem takeWhile_all_cons {p : Char → Bool} :
    ∀ (l : List Char) (c : Char) (r : List Char),
      (∀ a ∈ l, p a = true) → p c = false →
      List.takeWhile p (l ++ c :: r) = l := by
  intro l
  induction l with
  | nil =>
    intro c r _ hc
    rw [List.nil_append, List.takeWhile_cons, hc]
    simp
  | cons a l ih =>
    intro c r hl hc
    rw [List.cons_append, List.takeWhile_cons, hl a (by simp)]
    simp only [if_true]
    rw [ih c r (fun b hb => hl b (by simp [hb])) hc]

theorem revDigits_form (x : List Char) (c : Char) (d : List Char)
    (hc : isDig c = false) (hd : ∀ ch ∈ d, isDig ch = true) :
    revDigits (x ++ c :: d) = d.reverse := by
  unfold revDigits
  rw [List.reverse_append, List.reverse_cons, List.append_assoc,
    List.singleton_append]
  exact takeWhile_all_cons d.reverse c x.reverse
    (fun a ha => hd a (List.mem_reverse.mp ha)) hc

/-- The stem of the data suffixes without its final underscore. -/
def dsPre : List Char := ("_slice_transfer_data").data

theorem dataStem_decomp : dataStem = dsPre ++ ['_'] := by decide

theorem revDigits_append_data (x : List Char) (i : Nat) :
    revDigits (x ++ (dataStem ++ natChars i)) = (natChars i).reverse := by
  rw [dataStem_decomp]
  rw [show x ++ ((dsPre ++ ['_']) ++ natChars i)
      = (x ++ dsPre) ++ '_' :: natChars i from by simp [List.append_assoc]]
  exact revDigits_form _ _ _ (by decide) (natChars_all_digits i)

theorem revDigits_data (i : Nat) :
    revDigits (dataStem ++ natChars i) = (natChars i).reverse := by
  have := revDigits_append_data [] i
  simpa using this

theorem revDigits_append_dataSub (x : List Char) (i j : Nat) :
    revDigits (x ++ (dataStem ++ natChars i ++ ['_'] ++ natChars j))
      = (natChars j).reverse := by
  rw [show x ++ (dataStem ++ natChars i ++ ['_'] ++ natChars j)
      = (x ++ (dataStem ++ natChars i)) ++ '_' :: natChars j from by
    simp [List.append_assoc]]
  exact revDigits_form _ _ _ (by decide) (natChars_all_digits j)

theorem revDigits_dataSub (i j : Nat) :
    revDigits (dataStem ++ natChars i ++ ['_'] ++ natChars j)
      = (natChars j).reverse := by
  have := revDigits_append_dataSub [] i j
  simpa using this

theorem revDigits_append_dsPre (x : List Char) :
    revDigits (x ++ dsPre) = [] := by
  rw [show x ++ dsPre = (x ++ ("_slice_transfer_dat").data) ++ 'a' :: []
      from by simp [List.append_assoc]; decide]
  have := revDigits_form (x ++ ("_slice_transfer_dat").data) 'a' []
    (by decide) (by simp)
  simpa using this

theorem getLast?_of_suffix {l1 l2 : List Char} (h : l1 <:+ l2) (hne : l1 ≠ []) :
    l2.getLast? = l1.getLast? := by
  obtain ⟨X, rfl⟩ := h
  rw [List.getLast?_append]
  rcases List.eq_nil_or_concat l1 with h1 | ⟨L, b, h1⟩
  · exact absurd h1 hne
  · rw [h1, List.concat_eq_append, List.getLast?_concat]
    rfl

theorem natChars_last (n : Nat) :
    ∃ c, (natChars n).getLast? = some c ∧ isDig c = true := by
  rcases List.eq_nil_or_concat (natChars n) with h | ⟨L, b, h⟩
  · exact absurd h (natChars_ne_nil n)
  · rw [List.concat_eq_append] at h
    refine ⟨b, ?_, ?_⟩
    · rw [h]
      exact List.getLast?_concat _
    · exact natChars_all_digits n b (by rw [h]; simp)

theorem suffix_last_data (i : Nat) :
    ∃ c, (PhaseKey.suffixChars (.data i)).getLast? = some c ∧ isDig c = true := by
  obtain ⟨c, h1, h2⟩ := natChars_last i
  refine ⟨c, ?_, h2⟩
  rw [PhaseKey.suffixChars, List.getLast?_append, h1]
  rfl

theorem suffix_last_dataSub (i j : Nat) :
    ∃ c, (PhaseKey.suffixChars (.dataSub i j)).getLast? = some c ∧
      isDig c = true := by
  obtain ⟨c, h1, h2⟩ := natChars_last j
  refine ⟨c, ?_, h2⟩
  rw [PhaseKey.suffixChars, List.getLast?_append, h1]
  rfl

theorem not_suffix_of_last {s1 s2 : List Char} {c1 c2 : Char}
    (h1 : s1.getLast? = some c1) (h2 : s2.getLast? = some c2)
    (hne : isDig c1 ≠ isDig c2) : ¬ s1 <:+ s2 := by
  intro h
  have hnil : s1 ≠ [] := by
    intro hn
    rw [hn] at h1
    simp at h1
  have heq := getLast?_of_suffix h hnil
  rw [h1, h2] at heq
  have : c2 = c1 := by injection heq
  rw [this] at hne
  exact hne rfl

theorem data_suffix_data {i j : Nat} {X : List Char}
    (h : X ++ (dataStem ++ natChars i) = dataStem ++ natChars j) : i = j := by
  have h1 := congrArg revDigits h
  rw [revDigits_append_data X i, revDigits_data j] at h1
  exact natChars_inj (List.reverse_inj.mp h1)

theorem data_suffix_dataSub {i i' j' : Nat} {X : List Char}
    (h : X ++ (dataStem ++ natChars i)
       = dataStem ++ natChars i' ++ ['_'] ++ natChars j') : False := by
  have hrun : natChars i = natChars j' := by
    have h1 := congrArg revDigits h
    rw [revDigits_append_data X i, revDigits_dataSub i' j'] at h1
    exact List.reverse_inj.mp h1
  rw [← hrun] at h
  have hcan : (X ++ dataStem) ++ natChars i
      = (dataStem ++ natChars i' ++ ['_']) ++ natChars i := by
    simp only [List.append_assoc] at h ⊢
    exact h
  have h3 := List.append_cancel_right hcan
  have h4 : (X ++ dsPre) ++ ['_'] = (dataStem ++ natChars i') ++ ['_'] := by
    rw [dataStem_decomp] at h3
    simp only [List.append_assoc] at h3 ⊢
    rw [dataStem_decomp]
    simp only [List.append_assoc]
    exact h3
  have h5 := List.append_cancel_right h4
  have h6 := congrArg revDigits h5
  rw [revDigits_append_dsPre, revDigits_data i'] at h6
  exact natChars_ne_nil i' (List.reverse_eq_nil_iff.mp h6.symm)

theorem dataSub_suffix_data {i j i'' : Nat} {X : List Char}
    (h : X ++ (dataStem ++ natChars i ++ ['_'] ++ natChars j)
       = dataStem ++ natChars i'') : False := by
  have hrun : natChars j = natChars i'' := by
    have h1 := congrArg revDigits h
    rw [revDigits_append_dataSub X i j, revDigits_data i''] at h1
    exact List.reverse_inj.mp h1
  rw [← hrun] at h
  have hcan : (X ++ dataStem ++ natChars i ++ ['_']) ++ natChars j
      = dataStem ++ natChars j := by
    simp only [List.append_assoc] at h ⊢
    exact h
  have hcan2 : (X ++ dataStem ++ natChars i ++ ['_']) ++ natChars j
      = (dsPre ++ ['_']) ++ natChars j := by
    rw [hcan, dataStem_decomp]
  have h3 := List.append_cancel_right hcan2
  have h4 : (X ++ (dataStem ++ natChars i)) ++ ['_'] = dsPre ++ ['_'] := by
    simp only [List.append_assoc] at h3 ⊢
    exact h3
  have h5 := List.append_cancel_right h4
  have h6 := congrArg revDigits h5
  rw [revDigits_append_data X i] at h6
  have h7 : revDigits dsPre = [] := by
    have := revDigits_append_dsPre []
    simpa using this
  rw [h7] at h6
  exact natChars_ne_nil i (List.reverse_eq_nil_iff.mp h6)

theorem dataSub_suffix_dataSub {i1 j1 i2 j2 : Nat} {X : List Char}
    (h : X ++ (dataStem ++ natChars i1 ++ ['_'] ++ natChars j1)
       = dataStem ++ natChars i2 ++ ['_'] ++ natChars j2) :
    i1 = i2 ∧ j1 = j2 := by
  have hrun : natChars j1 = natChars j2 := by
    have h1 := congrArg revDigits h
    rw [revDigits_append_dataSub X i1 j1, revDigits_dataSub i2 j2] at h1
    exact List.reverse_inj.mp h1
  have hj : j1 = j2 := natChars_inj hrun
  rw [← hrun] at h
  have hcan : (X ++ dataStem ++ natChars i1 ++ ['_']) ++ natChars j1
      = (dataStem ++ natChars i2 ++ ['_']) ++ natChars j1 := by
    simp only [List.append_assoc] at h ⊢
    exact h
  have h3 := List.append_cancel_right hcan
  have h4 : (X ++ (dataStem ++ natChars i1)) ++ ['_']
      = (dataStem ++ natChars i2) ++ ['_'] := by
    simp only [List.append_assoc] at h3 ⊢
    exact h3
  have h5 := List.append_cancel_right h4
  have h6 := congrArg revDigits h5
  rw [revDigits_append_data X i1, revDigits_data i2] at h6
  exact ⟨natChars_inj (List.reverse_inj.mp h6), hj⟩

/-- No protocol phase suffix is a proper suffix of another: a suffix
relation between two phase suffixes forces the phases to coincide. -/
theorem suffixChars_suffix_free :
    ∀ k1 k2 : PhaseKey, k1.suffixChars <:+ k2.suffixChars → k1 = k2 := by
  have hA : (PhaseKey.suffixChars .totalBytes).getLast? = some 's' := by decide
  have hB : (PhaseKey.suffixChars .transferData).getLast? = some 'a' := by decide
  have hC : (PhaseKey.suffixChars .shape).getLast? = some 'e' := by decide
  have hD : (PhaseKey.suffixChars .elementsSize).getLast? = some 'e' := by decide
  intro k1 k2 h
  cases k1 <;> cases k2
  case totalBytes.totalBytes => rfl
  case transferData.transferData => rfl
  case shape.shape => rfl
  case elementsSize.elementsSize => rfl
  case totalBytes.transferData => exact absurd h (by decide)
  case totalBytes.shape => exact absurd h (by decide)
  case totalBytes.elementsSize => exact absurd h (by decide)
  case transferData.totalBytes => exact absurd h (by decide)
  case transferData.shape => exact absurd h (by decide)
  case transferData.elementsSize => exact absurd h (by decide)
  case shape.totalBytes => exact absurd h (by decide)
  case shape.transferData => exact absurd h (by decide)
  case shape.elementsSize => exact absurd h (by decide)
  case elementsSize.totalBytes => exact absurd h (by decide)
  case elementsSize.transferData => exact absurd h (by decide)
  case elementsSize.shape => exact absurd h (by decide)
  case totalBytes.data i =>
    obtain ⟨c, h1, h2⟩ := suffix_last_data i
    exact absurd h (not_suffix_of_last hA h1 (by rw [h2]; decide))
  case totalBytes.dataSub i j =>
    obtain ⟨c, h1, h2⟩ := suffix_last_dataSub i j
    exact absurd h (not_suffix_of_last hA h1 (by rw [h2]; decide))
  case transferData.data i =>
    obtain ⟨c, h1, h2⟩ := suffix_last_data i
    exact absurd h (not_suffix_of_last hB h1 (by rw [h2]; decide))
  case transferData.dataSub i j =>
    obtain ⟨c, h1, h2⟩ := suffix_last_dataSub i j
    exact absurd h (not_suffix_of_last hB h1 (by rw [h2]; decide))
  case shape.data i =>
    obtain ⟨c, h1, h2⟩ := suffix_last_data i
    exact absurd h (not_suffix_of_last hC h1 (by rw [h2]; decide))
  case shape.dataSub i j =>
    obtain ⟨c, h1, h2⟩ := suffix_last_dataSub i j
    exact absurd h (not_suffix_of_last hC h1 (by rw [h2]; decide))
  case elementsSize.data i =>
    obtain ⟨c, h1, h2⟩ := suffix_last_data i
    exact absurd h (not_suffix_of_last hD h1 (by rw [h2]; decide))
  case elementsSize.dataSub i j =>
    obtain ⟨c, h1, h2⟩ := suffix_last_dataSub i j
    exact absurd h (not_suffix_of_last hD h1 (by rw [h2]; decide))
  case data.totalBytes i =>
    obtain ⟨c, h1, h2⟩ := suffix_last_data i
    exact absurd h (not_suffix_of_last h1 hA (by rw [h2]; decide))
  case data.transferData i =>
    obtain ⟨c, h1, h2⟩ := suffix_last_data i
    exact absurd h (not_suffix_of_last h1 hB (by rw [h2]; decide))
  case data.shape i =>
    obtain ⟨c, h1, h2⟩ := suffix_last_data i
    exact absurd h (not_suffix_of_last h1 hC (by rw [h2]; decide))
  case data.elementsSize i =>
    obtain ⟨c, h1, h2⟩ := suffix_last_data i
    exact absurd h (not_suffix_of_last h1 hD (by rw [h2]; decide))
  case dataSub.totalBytes i j =>
    obtain ⟨c, h1, h2⟩ := suffix_last_dataSub i j
    exact absurd h (not_suffix_of_last h1 hA (by rw [h2]; decide))
  case dataSub.transferData i j =>
    obtain ⟨c, h1, h2⟩ := suffix_last_dataSub i j
    exact absurd h (not_suffix_of_last h1 hB (by rw [h2]; decide))
  case dataSub.shape i j =>
    obtain ⟨c, h1, h2⟩ := suffix_last_dataSub i j
    exact absurd h (not_suffix_of_last h1 hC (by rw [h2]; decide))
  case dataSub.elementsSize i j =>
    obtain ⟨c, h1, h2⟩ := suffix_last_dataSub i j
    exact absurd h (not_suffix_of_last h1 hD (by rw [h2]; decide))
  case data.data i j =>
    obtain ⟨X, hX⟩ := h
    rw [PhaseKey.suffixChars, PhaseKey.suffixChars] at hX
    rw [data_suffix_data hX]
  case data.dataSub i i' j' =>
    obtain ⟨X, hX⟩ := h
    rw [PhaseKey.suffixChars, PhaseKey.suffixChars] at hX
    exact absurd hX (fun hc => data_suffix_dataSub hc)
  case dataSub.data i j i'' =>
    obtain ⟨X, hX⟩ := h
    rw [PhaseKey.suffixChars, PhaseKey.suffixChars] at hX
    exact absurd hX (fun hc => dataSub_suffix_data hc)
  case dataSub.dataSub i1 j1 i2 j2 =>
    obtain ⟨X, hX⟩ := h
    rw [PhaseKey.suffixChars, PhaseKey.suffixChars] at hX
    obtain ⟨hi, hj⟩ := dataSub_suffix_dataSub hX
    rw [hi, hj]

/-! ### Splitting a key at its separators -/

theorem append_cons_left_inj {c : Char} :
    ∀ {l1 r1 l2 r2 : List Char},
      l1 ++ c :: r1 = l2 ++ c :: r2 → c ∉ l1 → c ∉ l2 → l1 = l2 ∧ r1 = r2 := by
  intro l1
  induction l1 with
  | nil =>
    intro r1 l2 r2 h h1 h2
    cases l2 with
    | nil =>
      refine ⟨rfl, ?_⟩
      rw [List.nil_append, List.nil_append] at h
      injection h
    | cons y l2 =>
      rw [List.nil_append, List.cons_append] at h
      have hy : c = y := by injection h
      exact absurd (by rw [← hy] at h2; exact h2 (List.mem_cons_self c l2))
        not_false
  | cons x l1 ih =>
    intro r1 l2 r2 h h1 h2
    cases l2 with
    | nil =>
      rw [List.cons_append, List.nil_append] at h
      have hx : x = c := by injection h
      exact absurd (by rw [hx]; exact List.mem_cons_self c l1) h1
    | cons y l2 =>
      rw [List.cons_append, List.cons_append] at h
      have hxy : x = y := by injection h
      have htail : l1 ++ c :: r1 = l2 ++ c :: r2 := by injection h
      obtain ⟨hl, hr⟩ := ih htail
        (fun hc => h1 (by simp [hc])) (fun hc => h2 (by simp [hc]))
      exact ⟨by rw [hxy, hl], hr⟩

theorem append_cons_right_inj {c : Char} {a1 b1 a2 b2 : List Char}
    (h : a1 ++ c :: b1 = a2 ++ c :: b2) (h1 : c ∉ b1) (h2 : c ∉ b2) :
    a1 = a2 ∧ b1 = b2 := by
  have hre := congrArg List.reverse h
  rw [List.reverse_append, List.reverse_append, List.reverse_cons,
    List.reverse_cons, List.append_assoc, List.append_assoc,
    List.singleton_append, List.singleton_append] at hre
  obtain ⟨hb, ha⟩ := append_cons_left_inj hre
    (fun hc => h1 (List.mem_reverse.mp hc))
    (fun hc => h2 (List.mem_reverse.mp hc))
  exact ⟨List.reverse_inj.mp ha, List.reverse_inj.mp hb⟩

theorem not_mem_natChars_of_not_dig {c : Char} (hc : isDig c = false)
    (n : Nat) : c ∉ natChars n := by
  intro h
  rw [natChars_all_digits n c h] at hc
  exact Bool.noConfusion hc

theorem semi_not_mem_fi (f i : Nat) :
    ';' ∉ natChars f ++ ':' :: natChars i := by
  intro h
  rcases List.mem_append.mp h with h | h
  · exact not_mem_natChars_of_not_dig (by decide) f h
  · rcases List.mem_cons.mp h with h | h
    · exact absurd h (by decide)
    · exact not_mem_natChars_of_not_dig (by decide) i h

/-! ### Claims -/

/-- The six wire shapes of the protocol's tensor-name suffixes. -/
def protoSuffixForm (s : List Char) : Prop :=
  s = ("_transfer_data").data ∨
  s = ("_slice_transfer_totalbytes").data ∨
  s = ("_slice_transfer_shape").data ∨
  s = ("_slice_transfer_elements_size").data ∨
  (∃ i : Nat, s = ("_slice_transfer_data_").data ++ natChars i) ∨
  (∃ i j : Nat,
    s = ("_slice_transfer_data_").data ++ natChars i ++ ['_'] ++ natChars j)

/-- C5: every full rendezvous key produced by the slice protocol has
exactly the wire form `<src>;<src_incarnation_decimal>;<dst>;<channel>
<phase_suffix>;<frame>:<iter>` (incarnation, frame and iteration rendered
in decimal), and the phase suffixes used are exactly the six listed
shapes. -/
theorem c5_wire_format :
    (∀ (sendDevice recvDevice tensorName : List Char)
        (incarnation frameId iterId : Nat) (k : PhaseKey),
      getSliceRendezvousKey
        (getSliceRendezvousKeyPre sendDevice recvDevice incarnation tensorName)
        k.suffixChars frameId iterId
      = sendDevice ++ [';'] ++ natChars incarnation ++ [';'] ++ recvDevice
          ++ [';'] ++ tensorName ++ k.suffixChars ++ [';'] ++ natChars frameId
          ++ [':'] ++ natChars iterId) ∧
    (∀ k : PhaseKey, protoSuffixForm k.suffixChars) ∧
    (∀ s : List Char, protoSuffixForm s → ∃ k : PhaseKey, k.suffixChars = s) := by
  refine ⟨?_, ?_, ?_⟩
  · intro sd rd nm inc f it k
    unfold getSliceRendezvousKey getSliceRendezvousKeyPre fpToString
    simp [List.append_assoc]
  · intro k
    cases k with
    | totalBytes => exact Or.inr (Or.inl rfl)
    | transferData => exact Or.inl rfl
    | shape => exact Or.inr (Or.inr (Or.inl rfl))
    | elementsSize => exact Or.inr (Or.inr (Or.inr (Or.inl rfl)))
    | data i => exact Or.inr (Or.inr (Or.inr (Or.inr (Or.inl ⟨i, rfl⟩))))
    | dataSub i j =>
      exact Or.inr (Or.inr (Or.inr (Or.inr (Or.inr ⟨i, j, rfl⟩))))
  · intro s hs
    rcases hs with h | h | h | h | ⟨i, h⟩ | ⟨i, j, h⟩
    · exact ⟨.transferData, h.symm⟩
    · exact ⟨.totalBytes, h.symm⟩
    · exact ⟨.shape, h.symm⟩
    · exact ⟨.elementsSize, h.symm⟩
    · exact ⟨.data i, h.symm⟩
    · exact ⟨.dataSub i j, h.symm⟩

theorem c5_wire_format_witness :
    ∃ k : PhaseKey, k.suffixChars = ("_transfer_data").data :=
  c5_wire_format.2.2 ("_transfer_data").data (Or.inl rfl)

/-- C7: key construction is injective: two full keys built from distinct
(key prefix, phase suffix, frame id, iteration id) tuples are never equal
as strings — for any prefixes at all, since the phase-suffix family is
suffix-free and the trailing `frame:iter` block contains no `;`.  In
particular, within one transfer instance all generated phase keys are
pairwise distinct. -/
theorem c7_key_injective (p1 p2 : List Char) (k1 k2 : PhaseKey)
    (f1 i1 f2 i2 : Nat)
    (h : getSliceRendezvousKey p1 k1.suffixChars f1 i1
       = getSliceRendezvousKey p2 k2.suffixChars f2 i2) :
    p1 = p2 ∧ k1 = k2 ∧ f1 = f2 ∧ i1 = i2 := by
  unfold getSliceRendezvousKey at h
  have h' : (p1 ++ k1.suffixChars) ++ ';' :: (natChars f1 ++ ':' :: natChars i1)
      = (p2 ++ k2.suffixChars) ++ ';' :: (natChars f2 ++ ':' :: natChars i2) := by
    simp only [List.append_assoc, List.singleton_append] at h ⊢
    exact h
  obtain ⟨hA, hB⟩ := append_cons_right_inj h'
    (semi_not_mem_fi f1 i1) (semi_not_mem_fi f2 i2)
  obtain ⟨hf, hi⟩ := append_cons_left_inj hB
    (not_mem_natChars_of_not_dig (by decide) f1)
    (not_mem_natChars_of_not_dig (by decide) f2)
  have hsa : k1.suffixChars <:+ (p2 ++ k2.suffixChars) := by
    rw [← hA]
    exact List.suffix_append p1 k1.suffixChars
  have hk : k1 = k2 := by
    rcases List.suffix_or_suffix_of_suffix hsa
        (List.suffix_append p2 k2.suffixChars) with hh | hh
    · exact suffixChars_suffix_free _ _ hh
    · exact (suffixChars_suffix_free _ _ hh).symm
  refine ⟨?_, hk, natChars_inj hf, natChars_inj hi⟩
  rw [hk] at hA
  exact List.append_cancel_right hA

theorem c7_key_injective_witness :
    ("pre1").data = ("pre1").data ∧ PhaseKey.data 3 = PhaseKey.data 3 ∧
      (5 : Nat) = 5 ∧ (6 : Nat) = 6 :=
  c7_key_injective ("pre1").data ("pre1").data (PhaseKey.data 3)
    (PhaseKey.data 3) 5 6 5 6 rfl

/-- C1: for every payload tensor (fixed-width byte buffer or list of
variable-length strings) and every `slice_size ≥ 1`, running the
`SliceSendOp` phase sequence and then the mirrored `SliceRecvOp` phase
sequence over the same keys reproduces the original payload exactly —
byte-for-byte for fixed-width dtypes, string-for-string (including the
shape) for `DT_STRING`, on the direct fast path and the sliced path
alike. -/
theorem c1_roundtrip [Inhabited α] (w ts S : Nat) (p : Payload α)
    (hS : 1 ≤ S) (hwf : wfPayload w p) :
    roundTrip w ts S p = .ok (.out p) := by
  by_cases hfast : totalBytesOf w ts p ≤ S
  · unfold roundTrip
    rw [sliceSendCompute_fast hfast]
    exact sliceRecvCompute_fast w p.isStr hfast p
  · cases p with
    | basic sh bytes =>
      have hwfb : bytes.length = sh.prod * w := hwf
      have hfast' : S < bytes.length := by
        have htb : totalBytesOf (α := α) w ts (.basic sh bytes)
            = sh.prod * w := rfl
        rw [htb] at hfast
        omega
      unfold roundTrip
      rw [sliceSendCompute_slow_basic hS hfast]
      exact sliceRecvCompute_slow_basic hS hwfb hfast'
    | strs sh elems =>
      obtain ⟨hwfe, hW⟩ := hwf
      have hfast' : S < totalBytesOf (α := α) w ts (.strs sh elems) := by
        omega
      unfold roundTrip
      rw [sliceSendCompute_slow_strs hS hfast]
      exact sliceRecvCompute_slow_strs hS hwfe hW hfast'

theorem c1_roundtrip_witness :
    roundTrip 1 24 3
      (Payload.strs [3] [[1, 2], [1, 2, 3, 4, 5, 6, 7], ([] : List Nat)]) =
      .ok (.out (Payload.strs [3] [[1, 2], [1, 2, 3, 4, 5, 6, 7], []])) :=
  c1_roundtrip 1 24 3
    (Payload.strs [3] [[1, 2], [1, 2, 3, 4, 5, 6, 7], ([] : List Nat)])
    (by decide) ⟨rfl, by decide⟩

/-- C3: when `total_bytes ≤ slice_size` and the input is live, the sender
deposits exactly the `TotalBytes` phase and one `_transfer_data` phase
whose content is the whole payload tensor, and the receiver of exactly
those two phases returns that payload — no shape, per-element-sizes or
data-slice phase is sent, nor read (a read of any further phase would
fail on this two-phase table). -/
theorem c3_fast_path [Inhabited α] (w ts S : Nat) (p : Payload α)
    (h : totalBytesOf w ts p ≤ S) :
    sliceSendCompute w ts S false p =
      .ok [(PhaseKey.totalBytes, ⟨.ints [(totalBytesOf w ts p : Int)], false⟩),
           (PhaseKey.transferData, ⟨.whole p, false⟩)] ∧
    sliceRecvCompute w S p.isStr
      [(PhaseKey.totalBytes, ⟨.ints [(totalBytesOf w ts p : Int)], false⟩),
       (PhaseKey.transferData, ⟨.whole p, false⟩)] = .ok (.out p) :=
  ⟨sliceSendCompute_fast h, sliceRecvCompute_fast w p.isStr h p⟩

theorem c3_fast_path_witness :
    sliceSendCompute 1 2 9 false (Payload.basic [4] ([5, 6, 7, 8] : List Nat)) =
      .ok [(PhaseKey.totalBytes, ⟨.ints [(4 : Int)], false⟩),
           (PhaseKey.transferData,
             ⟨.whole (Payload.basic [4] ([5, 6, 7, 8] : List Nat)), false⟩)] ∧
    sliceRecvCompute 1 9 (Payload.basic [4] ([5, 6, 7, 8] : List Nat)).isStr
      [(PhaseKey.totalBytes, ⟨.ints [(4 : Int)], false⟩),
       (PhaseKey.transferData,
         ⟨.whole (Payload.basic [4] ([5, 6, 7, 8] : List Nat)), false⟩)] =
      .ok (.out (Payload.basic [4] ([5, 6, 7, 8] : List Nat))) :=
  c3_fast_path 1 2 9 (Payload.basic [4] ([5, 6, 7, 8] : List Nat)) (by decide)

/-- C4: on a dead input the sender deposits only the `TotalBytes` phase,
with the dead flag set, and a receiver that finds a dead `TotalBytes`
envelope returns `dead` — reading no further phase (the one-phase table
would fail any further read). -/
theorem c4_dead_short_circuit [Inhabited α] (w ts S : Nat) (p : Payload α)
    (isStr : Bool) :
    sliceSendCompute w ts S true p =
      .ok [(PhaseKey.totalBytes, ⟨.ints [(totalBytesOf w ts p : Int)], true⟩)] ∧
    sliceRecvCompute w S isStr
      ([(PhaseKey.totalBytes, ⟨.ints [(totalBytesOf w ts p : Int)], true⟩)] :
        Table α) = .ok .dead :=
  ⟨sliceSendCompute_dead w ts S p, sliceRecvCompute_dead w S isStr _⟩

/-- C6: every phase after `TotalBytes` is asserted non-dead by the
receiver (a dead envelope there yields the fatal `deadAssert`), and a
matching sender never trips it: every envelope `SliceSendOp::Compute`
deposits under a key other than `TotalBytes` carries `is_dead = false`. -/
theorem c6_nondead_after_totalbytes :
    (∀ (w ts S : Nat) (d : Bool) (p : Payload α) (t : Table α)
        (k : PhaseKey) (e : Env α),
        sliceSendCompute w ts S d p = .ok t → (k, e) ∈ t →
        k ≠ .totalBytes → e.isDead = false) ∧
    (∀ (t : Table α) (k : PhaseKey) (e : Env α),
        recvLookup t k = some e → e.isDead = true →
        recvAssertLive t k = .error .deadAssert) := by
  constructor
  · intro w ts S d p t k e hsend hm hk
    cases d
    · by_cases hfast : totalBytesOf w ts p ≤ S
      · rw [sliceSendCompute_fast hfast] at hsend
        rw [show t = _ from (Except.ok.injEq _ _).mp hsend.symm] at hm
        rcases List.mem_cons.mp hm with h1 | h2
        · exact absurd (congrArg Prod.fst h1) (by simpa using hk)
        · rcases List.mem_cons.mp h2 with h3 | h4
          · exact congrArg Env.isDead (congrArg Prod.snd h3)
          · simp at h4
      · cases p with
        | basic sh bytes =>
          rcases hbt : sendBasicType S false bytes with r | dataT <;>
            simp only [sliceSendCompute, Bool.false_eq_true, if_false,
              if_neg hfast, hbt, bindE_err, bindE_ok] at hsend
          · exact absurd hsend (by simp)
          · rw [show t = _ from (Except.ok.injEq _ _).mp hsend.symm] at hm
            rcases List.mem_append.mp hm with h12 | h3
            · rcases List.mem_append.mp h12 with h1 | h2
              · exact absurd (congrArg Prod.fst (List.mem_singleton.mp h1))
                  (by simpa using hk)
              · exact congrArg Env.isDead
                  (congrArg Prod.snd (List.mem_singleton.mp h2))
            · exact sendBasicType_isDead hbt k e h3
        | strs sh elems =>
          rcases hst : sendString S false elems with r | dataT <;>
            simp only [sliceSendCompute, Bool.false_eq_true, if_false,
              if_neg hfast, hst, bindE_err, bindE_ok] at hsend
          · exact absurd hsend (by simp)
          · rw [show t = _ from (Except.ok.injEq _ _).mp hsend.symm] at hm
            rcases List.mem_append.mp hm with h12 | h3
            · rcases List.mem_append.mp h12 with h1 | h2
              · exact absurd (congrArg Prod.fst (List.mem_singleton.mp h1))
                  (by simpa using hk)
              · exact congrArg Env.isDead
                  (congrArg Prod.snd (List.mem_singleton.mp h2))
            · exact sendString_isDead hst k e h3
    · rw [sliceSendCompute_dead w ts S p] at hsend
      rw [show t = _ from (Except.ok.injEq _ _).mp hsend.symm] at hm
      exact absurd (congrArg Prod.fst (List.mem_singleton.mp hm))
        (by simpa using hk)
  · intro t k e h1 h2
    simp [recvAssertLive, h1, h2]

theorem c6_nondead_after_totalbytes_witness :
    (Env.mk (TVal.whole (Payload.basic [1] ([5] : List Nat))) false).isDead
      = false ∧
    recvAssertLive [(PhaseKey.shape, ⟨TVal.ints [], true⟩)] PhaseKey.shape
      = (.error .deadAssert : Except RErr (TVal Nat)) :=
  ⟨(c6_nondead_after_totalbytes (α := Nat)).1 1 1 9 false
      (Payload.basic [1] [5])
      [(PhaseKey.totalBytes, ⟨.ints [(1 : Int)], false⟩),
       (PhaseKey.transferData, ⟨.whole (Payload.basic [1] [5]), false⟩)]
      PhaseKey.transferData ⟨.whole (Payload.basic [1] [5]), false⟩
      (by decide) (by decide) (by decide),
   (c6_nondead_after_totalbytes (α := Nat)).2
      [(PhaseKey.shape, ⟨TVal.ints [], true⟩)] PhaseKey.shape
      ⟨TVal.ints [], true⟩ (by decide) (by decide)⟩

/-- C8: for every `total ≥ slice_size ≥ 1` and non-negative slice index,
the final-slice test used by the source, `i * slice_size > total -
slice_size`, holds iff `i * slice_size + slice_size > total`; hence
`copySizeI` may equivalently be written with the latter comparison, and
the `size_t` form of the test used by `SendStringSlice` agrees as well. -/
theorem c8_final_slice_test (total S i : Int) (hS : 1 ≤ S) (hT : S ≤ total)
    (hi : 0 ≤ i) :
    ((i * S > total - S) ↔ (i * S + S > total)) ∧
    copySizeI total S i = (if i * S + S > total then total - i * S else S) ∧
    (∀ N₂ S₂ i₂ : Nat, 1 ≤ S₂ → S₂ ≤ N₂ → N₂ < W64 →
      ((i₂ * S₂ > usub64 N₂ S₂) ↔ (i₂ * S₂ + S₂ > N₂))) := by
  have hiff : (i * S > total - S) ↔ (i * S + S > total) := by omega
  refine ⟨hiff, ?_, ?_⟩
  · unfold copySizeI
    by_cases hc : i * S > total - S
    · rw [if_pos hc, if_pos (hiff.mp hc)]
    · rw [if_neg hc, if_neg (fun hx => hc (hiff.mpr hx))]
  · intro N₂ S₂ i₂ h1 h2 h3
    rw [usub64_eq_sub h2 h3]
    omega

theorem c8_final_slice_test_witness :
    (((3 : Int) * 3 > 10 - 3) ↔ ((3 : Int) * 3 + 3 > 10)) ∧
    copySizeI 10 3 3 = (if (3 : Int) * 3 + 3 > 10 then 10 - 3 * 3 else 3) ∧
    (∀ N₂ S₂ i₂ : Nat, 1 ≤ S₂ → S₂ ≤ N₂ → N₂ < W64 →
      ((i₂ * S₂ > usub64 N₂ S₂) ↔ (i₂ * S₂ + S₂ > N₂))) :=
  c8_final_slice_test 10 3 3 (by norm_num) (by norm_num) (by norm_num)

/-- C9: `Send` never blocks: on every table state — with a waiter
registered under the key, with a deposited envelope, or with the channel
empty — the producer's `rdvSend` returns at once, with success unless the
table has been aborted; its result type has no waiting outcome at all. -/
theorem c9_send_never_blocks {κ : Type} [DecidableEq κ]
    (s : RdvState κ α) (k : κ) (e : α) :
    (rdvSend s k e).2 = (if s.aborted then .abortedErr else .ok) := by
  unfold rdvSend
  by_cases h : s.aborted
  · rw [if_pos h, if_pos h]
  · rw [if_neg h, if_neg h]
    cases hc : chanLookup s.chans k with
    | none => rfl
    | some c => cases c <;> rfl

/-- C10: `slice_size ≥ 1` is an unchecked precondition of the slicing
paths: the slice counts of `SendBasicType`, `SendStringSlice`,
`RecvBasicType` and `RecvStringSlice` are all computed by `sliceNumE`,
whose division-by-zero branch is unreachable once `1 ≤ slice_size`, while
nothing at the interface rejects `slice_size = 0` — with `slice_size = 0`
the zero divisor is reached on each path. -/
theorem c10_slice_size_precondition :
    (∀ S n : Nat, 1 ≤ S → sliceNumE n S = .ok ((n + S - 1) / S)) ∧
    sliceNumE 10 0 = (.error .divByZero : Except RErr Nat) ∧
    sliceSendCompute 1 1 0 false (Payload.basic [2] ([0, 1] : List Nat)) =
      .error .divByZero ∧
    sendStringSlice 0 false ([0] : List Nat) 0 = .error .divByZero ∧
    recvBasicType ([] : Table Nat) 0 5 [] = .error .divByZero ∧
    recvStringSlice ([] : Table Nat) 0 0 3 = .error .divByZero :=
  ⟨fun S n hS => sliceNumE_ok hS n, by decide, by decide, by decide,
    by decide, by decide⟩

theorem c10_slice_size_precondition_witness :
    sliceNumE 5 3 = .ok ((5 + 3 - 1) / 3) :=
  c10_slice_size_precondition.1 3 5 (by decide)

/-- C2: for a buffer of `N` bytes sliced with `slice_size = S`, `S < N`,
the sender emits exactly `⌈N / S⌉` slices (the count `n` satisfies
`N ≤ n * S` and `(n - 1) * S < N`, and equals the receiver's `sliceNumE`
count); slice `i` starts at offset `i * S` and genuinely has length `S`,
except the final slice of length `N - i * S`; any index passing the
final-slice test is the last one. -/
theorem c2_slice_layout (S N : Nat) (bytes : List α)
    (hS : 1 ≤ S) (hN : S < N) (hlen : bytes.length = N) :
    ∃ tbl : Table α, sendBasicType S false bytes = .ok tbl ∧
      sliceNumE N S = .ok tbl.length ∧
      N ≤ tbl.length * S ∧ (tbl.length - 1) * S < N ∧
      (∀ i : Nat, i < tbl.length →
        tbl.get? i = some (PhaseKey.data i,
          ⟨.bytes ((bytes.drop (i * S)).take
            (if i + 1 = tbl.length then N - i * S else S)), false⟩) ∧
        ((bytes.drop (i * S)).take
            (if i + 1 = tbl.length then N - i * S else S)).length
          = (if i + 1 = tbl.length then N - i * S else S) ∧
        (((i : Int) * (S : Int) > (N : Int) - (S : Int)) → i + 1 = tbl.length)) := by
  have hN1 : 1 ≤ N := by omega
  set n := (N + S - 1) / S with hn
  have hle : N ≤ n * S := le_ceil_mul (S := S) (N := N) hS
  have hlt : (n - 1) * S < N := ceil_pred_mul_lt (S := S) (N := N) hS hN1
  have hcs : ∀ i : Nat, i < n →
      (copySizeI (N : Int) (S : Int) (i : Int)).toNat =
        if i + 1 = n then N - i * S else S := by
    intro i hi
    by_cases hfin : i + 1 = n
    · rw [if_pos hfin]
      refine copySizeI_toNat_last ?_ ?_
      · have h1 : n * S = i * S + S := by
          rw [← hfin]
          ring
        omega
      · have h2 : (n - 1) * S = i * S := by
          rw [← hfin]
          simp
        omega
    · rw [if_neg hfin]
      exact copySizeI_toNat_mid (mid_bound hS (by omega))
  refine ⟨(List.range n).map (fun i =>
    (PhaseKey.data i,
      ⟨.bytes ((bytes.drop (i * S)).take
          ((copySizeI ((bytes.length : Nat) : Int) (S : Int) (i : Int)).toNat)),
        false⟩)), ?_, ?_, ?_, ?_, ?_⟩
  · rw [sendBasicType_eq hS, hlen]
  · simp [sliceNumE_ok hS, hn]
  · simpa using hle
  · simpa using hlt
  · intro i hi
    simp only [List.length_map, List.length_range] at hi
    have hslice : ∀ c : Nat, c ≤ N - i * S →
        ((bytes.drop (i * S)).take c).length = c := by
      intro c hc
      rw [List.length_take, List.length_drop, hlen]
      omega
    have hcsl : (if i + 1 = n then N - i * S else S) ≤ N - i * S := by
      by_cases hfin : i + 1 = n
      · rw [if_pos hfin]
      · rw [if_neg hfin]
        have := mid_bound hS (S := S) (N := N) (i := i) (by omega)
        omega
    refine ⟨?_, ?_, ?_⟩
    · rw [List.get?_eq_getElem?, List.getElem?_map, List.getElem?_range hi]
      simp only [Option.map_some', List.length_map, List.length_range]
      rw [hlen, hcs i hi]
    · simp only [List.length_map, List.length_range]
      exact hslice _ hcsl
    · intro hgt
      simp only [List.length_map, List.length_range]
      by_contra hfin
      have hmid := mid_bound hS (S := S) (N := N) (i := i) (by omega)
      omega

theorem c2_slice_layout_witness :
    (∃ tbl : Table Nat, sendBasicType 3 false (List.range 10) = .ok tbl ∧
      sliceNumE 10 3 = .ok tbl.length ∧
      10 ≤ tbl.length * 3 ∧ (tbl.length - 1) * 3 < 10 ∧
      (∀ i : Nat, i < tbl.length →
        tbl.get? i = some (PhaseKey.data i,
          ⟨.bytes (((List.range 10).drop (i * 3)).take
            (if i + 1 = tbl.length then 10 - i * 3 else 3)), false⟩) ∧
        (((List.range 10).drop (i * 3)).take
            (if i + 1 = tbl.length then 10 - i * 3 else 3)).length
          = (if i + 1 = tbl.length then 10 - i * 3 else 3) ∧
        (((i : Int) * (3 : Int) > (10 : Int) - (3 : Int)) → i + 1 = tbl.length))) ∧
    (sendBasicType 3 false (List.range 10)).map (fun t => t.map (fun kv =>
      match kv.2.val with
      | .bytes xs => xs.length
      | _ => 0)) = .ok [3, 3, 3, 1] :=
  ⟨c2_slice_layout 3 10 (List.range 10) (by decide) (by decide) (by decide),
    by decide⟩

end SliceSendRecv
